import Mathlib

/-!
Verification development for the log-merge repository.

The repository contains two merge engines:
  src/solution/sync-sorted-merge.js   (blocking merge engine)
  src/solution/async-sorted-merge.js  (pipelined merge engine)
and the source simulator src/lib/log-source.js.

A log source (src/lib/log-source.js) yields its entries one at a time via
pop or popAsync, in the order it generates them, and returns the sentinel
value false on every call once it is drained (drained is set once and never
reset).  We therefore model a source as the list of entries it will yield,
a pull consuming the head and returning the sentinel (none) once the list
is empty.

Both engines interact with an external priority-queue package
(the js-sdsl PriorityQueue) and with the sink (printer).  The engines are
embedded as executable functions that record every externally observable
action as an event: pull calls (blocking engine), popAsync calls and their
awaited results (pipelined engine), print calls, and the final done call.
-/

/-- A log entry: date (timestamp, totally ordered) and an opaque message. -/
structure LogEntry where
  date : Int
  msg : String
  deriving DecidableEq, Repr

/-- An element of the priority queue, as built by both engines:
objects of shape `\x7b logEntry, logSourceIndex \x7d`.  In the blocking
engine the logEntry field can hold the exhaustion sentinel `false`
(modelled as `none`); the pipelined engine only stores genuine entries. -/
structure RankedEntry where
  logEntry : Option LogEntry
  logSourceIndex : Nat
  deriving DecidableEq, Repr

/-- The comparator passed to the PriorityQueue in both engine files:
`(a, b) => a.logEntry.date - b.logEntry.date`.  When a stored logEntry is
the sentinel `false`, `.date` is `undefined` and the subtraction yields
`NaN`; heap comparisons `cmp(x,y) < 0` and `> 0` are then both false, so
`NaN` behaves exactly like `0`, which is how we model it. -/
def cmpEntries (a b : RankedEntry) : Int :=
  match a.logEntry, b.logEntry with
  | some x, some y => x.date - y.date
  | _, _ => 0

/-- Modelled from the spec: the Ordering Structure of section 4.2 (the
js-sdsl PriorityQueue is an external package, not part of this
repository).  It is a min-priority container under `cmpEntries`:
extract-min removes and returns an element that is minimal under the
comparator, deterministically (here: the earliest-inserted minimal
element); insertion appends, bulk construction keeps the given list. -/
def popMin : List RankedEntry → Option (RankedEntry × List RankedEntry)
  | [] => none
  | a :: rest =>
    match popMin rest with
    | none => some (a, [])
    | some (m, rest') =>
      if cmpEntries a m ≤ 0 then some (a, rest) else some (m, a :: rest')

/-- Read source number i (the JSON array `logSources[i]`); out-of-range
reads never happen in either engine but default to an empty source. -/
def getSource : List (List LogEntry) → Nat → List LogEntry
  | [], _ => []
  | l :: _, 0 => l
  | _ :: ls, i + 1 => getSource ls i

/-- One call of `logSources[i].pop()` (or the value an immediately issued
`popAsync()` will resolve to): the next entry of source i, or the
sentinel `false` (`none`) if source i is drained. -/
def popSource : List (List LogEntry) → Nat → Option LogEntry × List (List LogEntry)
  | [], _ => (none, [])
  | [] :: ls, 0 => (none, [] :: ls)
  | (e :: rest) :: ls, 0 => (some e, rest :: ls)
  | l :: ls, i + 1 =>
    let (r, ls') := popSource ls i
    (r, l :: ls')

/-- Lookup in a JavaScript Map with Nat keys (insertion-ordered
association list, unique keys): `map.get(k)`. -/
def mapGet {α : Type} : List (Nat × α) → Nat → Option α
  | [], _ => none
  | (k, v) :: rest, i => if k = i then some v else mapGet rest i

/-- JavaScript `map.set(k, v)`: replaces the value of an existing key in
place, appends a fresh key at the end. -/
def mapSet {α : Type} : List (Nat × α) → Nat → α → List (Nat × α)
  | [], i, v => [(i, v)]
  | (k, w) :: rest, i, v =>
    if k = i then (i, v) :: rest else (k, w) :: mapSet rest i v

/-- JavaScript `map.delete(k)`: removes the entry with key k (keys are
unique in a Map, so removing the first occurrence is exact). -/
def mapDelete {α : Type} : List (Nat × α) → Nat → List (Nat × α)
  | [], _ => []
  | (k, w) :: rest, i =>
    if k = i then rest else (k, w) :: mapDelete rest i

/-- The keys of a Map, in insertion order. -/
def mapKeys {α : Type} (m : List (Nat × α)) : List Nat := m.map Prod.fst

/-- Externally observable actions of an engine run.
`pull i r` is a blocking `logSources[i].pop()` call returning r;
`issue i` is a `logSources[i].popAsync()` call (fetch goes in flight);
`await i r` is the resolution of the in-flight fetch for source i with r;
`print v` is `printer.print(v)` (v can be the sentinel, see the blocking
engine); `done` is `printer.done()`. -/
inductive Event where
  | pull (i : Nat) (r : Option LogEntry)
  | issue (i : Nat)
  | await (i : Nat) (r : Option LogEntry)
  | print (v : Option LogEntry)
  | done
  deriving DecidableEq, Repr

/-- The values passed to `printer.print` during a run, in order. -/
def printedValues (evs : List Event) : List (Option LogEntry) :=
  evs.filterMap fun e =>
    match e with
    | Event.print v => some v
    | _ => none

/-- The genuine log entries passed to `printer.print`, in order. -/
def printedEntries (evs : List Event) : List LogEntry :=
  evs.filterMap fun e =>
    match e with
    | Event.print (some x) => some x
    | _ => none

/-- The dates of the genuine printed entries, in order. -/
def printedDates (evs : List Event) : List Int :=
  (printedEntries evs).map LogEntry.date

/-! ### Blocking merge engine, src/solution/sync-sorted-merge.js

The seeding reduce (lines 42-52): pop each source once, in index order,
and push `\x7b logEntry, logSourceIndex \x7d` onto the initial array
when — as the code is written — `logEntry === false`; a genuine first
entry is not recorded anywhere.  The while loop (lines 60-73): pop the
queue minimum, print its logEntry field, pop the same source again, and
push `\x7b logEntry: nextLogEntry, logSourceIndex \x7d` back when
`nextLogEntry === false`; a genuine next entry is discarded.  Finally
`printer.done()` (line 75). -/

/-- The initial reduce of the blocking engine over the given index order
(the engine uses indices 0..n-1 in order).  Returns the mutated sources,
the initial array handed to the PriorityQueue constructor, and the pull
events. -/
def syncSeed (srcs : List (List LogEntry)) :
    List Nat → List (List LogEntry) × List RankedEntry × List Event
  | [] => (srcs, [], [])
  | i :: rest =>
    let (r, srcs') := popSource srcs i
    let (srcs'', acc, evs) := syncSeed srcs' rest
    match r with
    | none => (srcs'', ⟨none, i⟩ :: acc, Event.pull i none :: evs)
    | some e => (srcs'', acc, Event.pull i (some e) :: evs)

/-- The while loop of the blocking engine.  `fuel` bounds the number of
iterations; the JavaScript loop has no such bound, so a result with
second component `false` means the modelled loop was cut off while the
real loop was still running (the loop does not always terminate).
`true` means the loop exited and `printer.done()` ran. -/
def syncLoop : Nat → List (List LogEntry) → List RankedEntry → List Event × Bool
  | 0, _, _ => ([], false)
  | fuel + 1, srcs, queue =>
    match popMin queue with
    | none => ([Event.done], true)
    | some (re, queue') =>
      let (r, srcs') := popSource srcs re.logSourceIndex
      let queue'' :=
        match r with
        | none => queue' ++ [⟨none, re.logSourceIndex⟩]
        | some _ => queue'
      let (evs, fin) := syncLoop fuel srcs' queue''
      (Event.print re.logEntry :: Event.pull re.logSourceIndex r :: evs, fin)

/-- A whole run of the blocking merge engine (module.exports of
sync-sorted-merge.js) on the given sources, with the given loop fuel. -/
def syncRun (fuel : Nat) (srcs : List (List LogEntry)) : List Event × Bool :=
  let (srcs', q0, evs0) := syncSeed srcs (List.range srcs.length)
  let (evs, fin) := syncLoop fuel srcs' q0
  (evs0 ++ evs, fin)

/-! ### Pipelined merge engine, src/solution/async-sorted-merge.js

The seeding reduce (lines 48-52) calls `popAsync()` on every source and
stores the promise under the source index in a Map.  The for-of loop
(lines 57-70) then awaits each stored promise in insertion order: a
sentinel deletes the index from the Map, a genuine entry is recorded for
the heap and the next `popAsync()` for that index is issued at once.
The while loop (lines 78-96) pops the queue minimum, prints it, awaits
the promise already in flight for that index, and either deletes the
index (sentinel) or pushes the entry and issues the next fetch.
Finally `printer.done()` (line 97).

A promise is modelled by the value it will resolve to, determined at
issue time (popAsync computes the next entry eagerly and only delays its
delivery). -/

/-- The seeding reduce: issue one popAsync per index, building the Map. -/
def asyncSeedIssue (srcs : List (List LogEntry)) :
    List Nat → List (List LogEntry) × List (Nat × Option LogEntry) × List Event
  | [] => (srcs, [], [])
  | i :: rest =>
    let (r, srcs') := popSource srcs i
    let (srcs'', m, evs) := asyncSeedIssue srcs' rest
    (srcs'', (i, r) :: m, Event.issue i :: evs)

/-- The for-of loop over the Map entries.  `entries` is the iteration
snapshot (a Map iterator visits each key once, in insertion order; the
loop body only mutates the entry being visited, so the snapshot is the
Map as built by the seeding reduce), `pmap` the live Map. -/
def asyncSeedAwait (srcs : List (List LogEntry)) :
    List (Nat × Option LogEntry) → List (Nat × Option LogEntry) →
    List (List LogEntry) × List (Nat × Option LogEntry) × List RankedEntry × List Event
  | [], pmap => (srcs, pmap, [], [])
  | (i, r) :: rest, pmap =>
    match r with
    | none =>
      let (srcs', pmap', acc, evs) := asyncSeedAwait srcs rest (mapDelete pmap i)
      (srcs', pmap', acc, Event.await i none :: evs)
    | some e =>
      let (r', srcs') := popSource srcs i
      let (srcs'', pmap', acc, evs) := asyncSeedAwait srcs' rest (mapSet pmap i r')
      (srcs'', pmap', ⟨some e, i⟩ :: acc,
        Event.await i (some e) :: Event.issue i :: evs)

/-- The while loop of the pipelined engine.  On normal exit it returns
the final promise Map alongside the events (`printer.done()` ran);
`none` means the fuel ran out first.  The `mapGet _ _ = none` branch
corresponds to awaiting `logEntryPromises.get(i)` for an index absent
from the Map, i.e. awaiting `undefined`; it is unreachable (every queue
index has an in-flight promise, proved below as an invariant) and the
model treats it as the run being cut off. -/
def asyncLoop :
    Nat → List (List LogEntry) → List (Nat × Option LogEntry) → List RankedEntry →
    List Event × Option (List (Nat × Option LogEntry))
  | 0, _, _, _ => ([], none)
  | fuel + 1, srcs, pmap, queue =>
    match popMin queue with
    | none => ([Event.done], some pmap)
    | some (re, queue') =>
      match mapGet pmap re.logSourceIndex with
      | none => ([Event.print re.logEntry], none)
      | some none =>
        let (evs, fin) := asyncLoop fuel srcs (mapDelete pmap re.logSourceIndex) queue'
        (Event.print re.logEntry :: Event.await re.logSourceIndex none :: evs, fin)
      | some (some e) =>
        let (r', srcs') := popSource srcs re.logSourceIndex
        let (evs, fin) :=
          asyncLoop fuel srcs' (mapSet pmap re.logSourceIndex r')
            (queue' ++ [⟨some e, re.logSourceIndex⟩])
        (Event.print re.logEntry :: Event.await re.logSourceIndex (some e) ::
          Event.issue re.logSourceIndex :: evs, fin)

/-- A whole run of the pipelined merge engine (module.exports of
async-sorted-merge.js).  The second component is the final promise Map
if the run finished (`printer.done()` ran), `none` otherwise. -/
def asyncRun (fuel : Nat) (srcs : List (List LogEntry)) :
    List Event × Option (List (Nat × Option LogEntry)) :=
  let (srcs1, pmap0, evs1) := asyncSeedIssue srcs (List.range srcs.length)
  let (srcs2, pmap1, ranked, evs2) := asyncSeedAwait srcs1 pmap0 pmap0
  let (evs3, fin) := asyncLoop fuel srcs2 pmap1 ranked
  (evs1 ++ evs2 ++ evs3, fin)

/-- Total number of entries all sources will produce before exhaustion. -/
def totalEntries (srcs : List (List LogEntry)) : Nat := srcs.flatten.length

/-! ### The engines with a failing pull, section 7 of the spec

Claim C7 is about a pull that raises (blocking engine) or a popAsync
promise that rejects (pipelined engine).  Neither engine contains a
try/catch, a retry, or a .catch handler, so an error thrown by
`logSource.pop()` unwinds the whole exported function, and a rejected
promise makes the `await` re-throw and reject the exported async
function.  To express this we re-embed the same two files with the pull
result refined to a three-way value: a genuine entry, the drained
sentinel `false`, or a raised error. -/

/-- Result of one pull against a possibly failing source. -/
inductive PullResult where
  | entry (e : LogEntry)
  | drained
  | err
  deriving DecidableEq, Repr

/-- Events of a run against possibly failing sources. -/
inductive EventE where
  | pullE (i : Nat) (r : PullResult)
  | issueE (i : Nat)
  | awaitE (i : Nat) (r : PullResult)
  | printE (v : Option LogEntry)
  | doneE
  deriving DecidableEq, Repr

/-- How a run against possibly failing sources ended: `finished` means
`printer.done()` ran and the exported function returned; `aborted` means
an error propagated out of the run call; `fuelOut` means the modelled
loop was cut off by its fuel bound. -/
inductive Outcome where
  | finished
  | aborted
  | fuelOut
  deriving DecidableEq, Repr

/-- One pull against a possibly failing source: the scripted results are
consumed in order; past the end of the script the source behaves as
drained forever (as log-source.js does). -/
def popSourceE : List (List PullResult) → Nat → PullResult × List (List PullResult)
  | [], _ => (PullResult.drained, [])
  | [] :: ls, 0 => (PullResult.drained, [] :: ls)
  | (r :: rest) :: ls, 0 => (r, rest :: ls)
  | l :: ls, i + 1 =>
    let (r, ls') := popSourceE ls i
    (r, l :: ls')

/-- The blocking engine's seeding reduce with a failing pull: an error
raised inside the reduce callback unwinds immediately, so later sources
are not pulled.  The last component is false if the reduce aborted. -/
def syncSeedE (srcs : List (List PullResult)) :
    List Nat → List (List PullResult) × List RankedEntry × List EventE × Bool
  | [] => (srcs, [], [], true)
  | i :: rest =>
    let (r, srcs') := popSourceE srcs i
    match r with
    | PullResult.err => (srcs', [], [EventE.pullE i PullResult.err], false)
    | PullResult.drained =>
      let (srcs'', acc, evs, ok) := syncSeedE srcs' rest
      (srcs'', ⟨none, i⟩ :: acc, EventE.pullE i PullResult.drained :: evs, ok)
    | PullResult.entry e =>
      let (srcs'', acc, evs, ok) := syncSeedE srcs' rest
      (srcs'', acc, EventE.pullE i (PullResult.entry e) :: evs, ok)

/-- The blocking engine's while loop with a failing pull: the error
unwinds out of the loop at once, nothing after it runs. -/
def syncLoopE : Nat → List (List PullResult) → List RankedEntry → List EventE × Outcome
  | 0, _, _ => ([], Outcome.fuelOut)
  | fuel + 1, srcs, queue =>
    match popMin queue with
    | none => ([EventE.doneE], Outcome.finished)
    | some (re, queue') =>
      let (r, srcs') := popSourceE srcs re.logSourceIndex
      match r with
      | PullResult.err =>
        ([EventE.printE re.logEntry, EventE.pullE re.logSourceIndex PullResult.err],
          Outcome.aborted)
      | PullResult.drained =>
        let (evs, out) :=
          syncLoopE fuel srcs' (queue' ++ [⟨none, re.logSourceIndex⟩])
        (EventE.printE re.logEntry ::
          EventE.pullE re.logSourceIndex PullResult.drained :: evs, out)
      | PullResult.entry e =>
        let (evs, out) := syncLoopE fuel srcs' queue'
        (EventE.printE re.logEntry ::
          EventE.pullE re.logSourceIndex (PullResult.entry e) :: evs, out)

/-- A whole run of the blocking engine against possibly failing sources. -/
def syncRunE (fuel : Nat) (srcs : List (List PullResult)) : List EventE × Outcome :=
  let (srcs', q0, evs0, ok) := syncSeedE srcs (List.range srcs.length)
  if ok then
    let (evs, out) := syncLoopE fuel srcs' q0
    (evs0 ++ evs, out)
  else (evs0, Outcome.aborted)

/-- The pipelined engine's seeding reduce (issue one popAsync per index);
issuing never throws, the error only surfaces at an await. -/
def asyncSeedIssueE (srcs : List (List PullResult)) :
    List Nat → List (List PullResult) × List (Nat × PullResult) × List EventE
  | [] => (srcs, [], [])
  | i :: rest =>
    let (r, srcs') := popSourceE srcs i
    let (srcs'', m, evs) := asyncSeedIssueE srcs' rest
    (srcs'', (i, r) :: m, EventE.issueE i :: evs)

/-- The pipelined engine's for-of await loop with a rejecting promise:
the await re-throws and the whole exported async function rejects. -/
def asyncSeedAwaitE (srcs : List (List PullResult)) :
    List (Nat × PullResult) → List (Nat × PullResult) →
    List (List PullResult) × List (Nat × PullResult) × List RankedEntry × List EventE × Bool
  | [], pmap => (srcs, pmap, [], [], true)
  | (i, r) :: rest, pmap =>
    match r with
    | PullResult.err => (srcs, pmap, [], [EventE.awaitE i PullResult.err], false)
    | PullResult.drained =>
      let (srcs', pmap', acc, evs, ok) := asyncSeedAwaitE srcs rest (mapDelete pmap i)
      (srcs', pmap', acc, EventE.awaitE i PullResult.drained :: evs, ok)
    | PullResult.entry e =>
      let (r', srcs') := popSourceE srcs i
      let (srcs'', pmap', acc, evs, ok) := asyncSeedAwaitE srcs' rest (mapSet pmap i r')
      (srcs'', pmap', ⟨some e, i⟩ :: acc,
        EventE.awaitE i (PullResult.entry e) :: EventE.issueE i :: evs, ok)

/-- The pipelined engine's while loop with a rejecting promise.  The
`mapGet _ _ = none` branch is the same unreachable awaiting-undefined
corner as in `asyncLoop` and is treated as the run being cut off. -/
def asyncLoopE :
    Nat → List (List PullResult) → List (Nat × PullResult) → List RankedEntry →
    List EventE × Outcome
  | 0, _, _, _ => ([], Outcome.fuelOut)
  | fuel + 1, srcs, pmap, queue =>
    match popMin queue with
    | none => ([EventE.doneE], Outcome.finished)
    | some (re, queue') =>
      match mapGet pmap re.logSourceIndex with
      | none => ([EventE.printE re.logEntry], Outcome.fuelOut)
      | some PullResult.err =>
        ([EventE.printE re.logEntry, EventE.awaitE re.logSourceIndex PullResult.err],
          Outcome.aborted)
      | some PullResult.drained =>
        let (evs, out) :=
          asyncLoopE fuel srcs (mapDelete pmap re.logSourceIndex) queue'
        (EventE.printE re.logEntry ::
          EventE.awaitE re.logSourceIndex PullResult.drained :: evs, out)
      | some (PullResult.entry e) =>
        let (r', srcs') := popSourceE srcs re.logSourceIndex
        let (evs, out) :=
          asyncLoopE fuel srcs' (mapSet pmap re.logSourceIndex r')
            (queue' ++ [⟨some e, re.logSourceIndex⟩])
        (EventE.printE re.logEntry ::
          EventE.awaitE re.logSourceIndex (PullResult.entry e) ::
          EventE.issueE re.logSourceIndex :: evs, out)

/-- A whole run of the pipelined engine against possibly failing sources. -/
def asyncRunE (fuel : Nat) (srcs : List (List PullResult)) : List EventE × Outcome :=
  let (srcs1, pmap0, evs1) := asyncSeedIssueE srcs (List.range srcs.length)
  let (srcs2, pmap1, ranked, evs2, ok) := asyncSeedAwaitE srcs1 pmap0 pmap0
  if ok then
    let (evs3, out) := asyncLoopE fuel srcs2 pmap1 ranked
    (evs1 ++ evs2 ++ evs3, out)
  else (evs1 ++ evs2, Outcome.aborted)

/-- Is this event a raised error (a pull that threw, resp. an awaited
promise that rejected)? -/
def isErrE : EventE → Bool
  | EventE.pullE _ PullResult.err => true
  | EventE.awaitE _ PullResult.err => true
  | _ => false

/-- No error was raised anywhere in the trace. -/
def errFreeE (evs : List EventE) : Bool := evs.all fun ev => !(isErrE ev)

/-- How many times `printer.done()` ran. -/
def doneCountE (evs : List EventE) : Nat := evs.count EventE.doneE

/-- If an error event occurs at all, it is the final event of the trace
(nothing is retried or executed after a raise). -/
def errAtEndOnly : List EventE → Bool
  | [] => true
  | ev :: rest => if isErrE ev then rest.isEmpty else errAtEndOnly rest

/-! ### Basic lemmas about the queue, the sources and the Map model -/

theorem popMin_eq_none {q : List RankedEntry} : popMin q = none ↔ q = [] := by
  cases q with
  | nil => simp [popMin]
  | cons a rest =>
    simp only [popMin]
    cases h : popMin rest with
    | none => simp
    | some p =>
      obtain ⟨m, rest'⟩ := p
      by_cases hc : cmpEntries a m ≤ 0 <;> simp [hc]

theorem popMin_perm {q : List RankedEntry} {m : RankedEntry} {rest' : List RankedEntry}
    (h : popMin q = some (m, rest')) : q.Perm (m :: rest') := by
  induction q generalizing m rest' with
  | nil => simp [popMin] at h
  | cons a rest ih =>
    simp only [popMin] at h
    cases hr : popMin rest with
    | none =>
      rw [hr] at h
      obtain rfl : rest = [] := popMin_eq_none.mp hr
      simp at h
      obtain ⟨rfl, rfl⟩ := h
      exact List.Perm.refl _
    | some p =>
      obtain ⟨m0, r0⟩ := p
      rw [hr] at h
      have hperm := ih hr
      by_cases hc : cmpEntries a m0 ≤ 0
      · simp [hc] at h
        obtain ⟨rfl, rfl⟩ := h
        exact List.Perm.refl _
      · simp [hc] at h
        obtain ⟨rfl, rfl⟩ := h
        exact (hperm.cons a).trans (List.Perm.swap m0 a r0)

theorem popMin_mem {q : List RankedEntry} {m : RankedEntry} {rest' : List RankedEntry}
    (h : popMin q = some (m, rest')) : m ∈ q :=
  (popMin_perm h).symm.subset (List.mem_cons_self m rest')

theorem popMin_rest_subset {q : List RankedEntry} {m : RankedEntry} {rest' : List RankedEntry}
    (h : popMin q = some (m, rest')) : ∀ x ∈ rest', x ∈ q := fun _ hx =>
  (popMin_perm h).symm.subset (List.mem_cons_of_mem m hx)

theorem cmpEntries_some_some {m x : RankedEntry} {a b : LogEntry}
    (hm : m.logEntry = some a) (hx : x.logEntry = some b) :
    cmpEntries m x = a.date - b.date := by
  simp [cmpEntries, hm, hx]

/-- On a queue all of whose elements carry genuine entries, extract-min
returns a global minimum by date. -/
theorem popMin_min {q : List RankedEntry} {m : RankedEntry} {rest' : List RankedEntry}
    (hall : ∀ re ∈ q, re.logEntry.isSome = true)
    (h : popMin q = some (m, rest')) :
    ∀ x ∈ rest', ∀ a b, m.logEntry = some a → x.logEntry = some b → a.date ≤ b.date := by
  induction q generalizing m rest' with
  | nil => simp [popMin] at h
  | cons c rest ih =>
    simp only [popMin] at h
    cases hr : popMin rest with
    | none =>
      rw [hr] at h
      obtain rfl : rest = [] := popMin_eq_none.mp hr
      simp at h
      obtain ⟨rfl, rfl⟩ := h
      simp
    | some p =>
      obtain ⟨m0, r0⟩ := p
      rw [hr] at h
      have hallrest : ∀ re ∈ rest, re.logEntry.isSome = true := fun re hre =>
        hall re (List.mem_cons_of_mem c hre)
      obtain ⟨am0, ham0⟩ := Option.isSome_iff_exists.mp (hallrest m0 (popMin_mem hr))
      by_cases hc : cmpEntries c m0 ≤ 0
      · simp [hc] at h
        obtain ⟨rfl, rfl⟩ := h
        intro x hx a b hma hxb
        rw [cmpEntries_some_some hma ham0] at hc
        rcases List.mem_cons.mp ((popMin_perm hr).subset hx) with hxm0 | hxr0
        · subst hxm0
          rw [ham0] at hxb
          obtain rfl := Option.some.inj hxb
          omega
        · have h1 : am0.date ≤ b.date := ih hallrest hr x hxr0 am0 b ham0 hxb
          omega
      · simp [hc] at h
        obtain ⟨rfl, rfl⟩ := h
        intro x hx a b hma hxb
        rw [ham0] at hma
        obtain rfl := Option.some.inj hma
        rcases List.mem_cons.mp hx with hxc | hxr0
        · subst hxc
          rw [cmpEntries_some_some hxb ham0] at hc
          omega
        · exact ih hallrest hr x hxr0 am0 b ham0 hxb

theorem getSource_eq_nil_of_ge {srcs : List (List LogEntry)} {i : Nat}
    (h : srcs.length ≤ i) : getSource srcs i = [] := by
  induction srcs generalizing i with
  | nil => cases i <;> rfl
  | cons l ls ih =>
    cases i with
    | zero => simp at h
    | succ j => exact ih (by simpa using h)

theorem popSource_of_nil {srcs : List (List LogEntry)} {i : Nat}
    (h : getSource srcs i = []) : popSource srcs i = (none, srcs) := by
  induction srcs generalizing i with
  | nil => cases i <;> rfl
  | cons l ls ih =>
    cases i with
    | zero =>
      have : l = [] := h
      subst this
      rfl
    | succ j =>
      have := ih (i := j) h
      simp [popSource, this]

theorem popSource_of_cons {srcs : List (List LogEntry)} {i : Nat} {e : LogEntry}
    {t : List LogEntry} (h : getSource srcs i = e :: t) :
    (popSource srcs i).1 = some e ∧
    getSource (popSource srcs i).2 i = t ∧
    (∀ j, j ≠ i → getSource (popSource srcs i).2 j = getSource srcs j) ∧
    ((srcs.flatten : Multiset LogEntry) = e ::ₘ ((popSource srcs i).2.flatten : Multiset LogEntry)) ∧
    (popSource srcs i).2.length = srcs.length := by
  induction srcs generalizing i with
  | nil => cases i <;> simp [getSource] at h
  | cons l ls ih =>
    cases i with
    | zero =>
      have hl : l = e :: t := h
      subst hl
      refine ⟨rfl, rfl, ?_, ?_, rfl⟩
      · intro j hj
        cases j with
        | zero => simp at hj
        | succ k => rfl
      · simp [popSource]
    | succ j =>
      have hg : getSource ls j = e :: t := h
      obtain ⟨h1, h2, h3, h4, h5⟩ := ih hg
      rcases hp : popSource ls j with ⟨r, ls'⟩
      rw [hp] at h1 h2 h3 h4 h5
      refine ⟨?_, ?_, ?_, ?_, ?_⟩
      · simp [popSource, hp, h1]
      · simpa [popSource, hp] using h2
      · intro k hk
        cases k with
        | zero => simp [popSource, hp, getSource]
        | succ k' =>
          have : k' ≠ j := by omega
          simpa [popSource, hp, getSource] using h3 k' this
      · simp only [popSource, hp, List.flatten_cons]
        have : ((l ++ ls.flatten : List LogEntry) : Multiset LogEntry) =
            (l : Multiset LogEntry) + (ls.flatten : Multiset LogEntry) := by
          simp
        rw [this]
        have h4' : ((ls.flatten : List LogEntry) : Multiset LogEntry) =
            e ::ₘ (ls'.flatten : Multiset LogEntry) := h4
        rw [h4']
        simp [Multiset.cons_swap]
      · simpa [popSource, hp] using h5

theorem popSource_none_iff {srcs : List (List LogEntry)} {i : Nat} :
    (popSource srcs i).1 = none ↔ getSource srcs i = [] := by
  cases h : getSource srcs i with
  | nil => simp [popSource_of_nil h]
  | cons e t =>
    obtain ⟨h1, _, _, _, _⟩ := popSource_of_cons h
    simp [h1]

theorem flatten_eq_nil_of_sources_nil {srcs : List (List LogEntry)}
    (h : ∀ i, getSource srcs i = []) : srcs.flatten = [] := by
  induction srcs with
  | nil => rfl
  | cons l ls ih =>
    have hl : l = [] := h 0
    have hls : ls.flatten = [] := ih fun i => h (i + 1)
    simp [hl, hls]

theorem mem_mapKeys {α : Type} {m : List (Nat × α)} {i : Nat} :
    i ∈ mapKeys m ↔ ∃ v, (i, v) ∈ m := by
  constructor
  · intro h
    obtain ⟨p, hp, he⟩ := List.mem_map.mp h
    exact ⟨p.2, by simpa [← he] using hp⟩
  · rintro ⟨v, hv⟩
    exact List.mem_map.mpr ⟨(i, v), hv, rfl⟩

theorem mapGet_isSome_of_mem_keys {α : Type} {m : List (Nat × α)} {i : Nat}
    (h : i ∈ mapKeys m) : ∃ v, mapGet m i = some v := by
  induction m with
  | nil => simp [mapKeys] at h
  | cons p rest ih =>
    obtain ⟨k, w⟩ := p
    by_cases hk : k = i
    · subst hk
      exact ⟨w, by simp [mapGet]⟩
    · have : i ∈ mapKeys rest := by
        simp [mapKeys] at h ⊢
        rcases h with h | h
        · omega
        · exact h
      obtain ⟨v, hv⟩ := ih this
      exact ⟨v, by simp [mapGet, hk, hv]⟩

theorem mem_keys_of_mapGet {α : Type} {m : List (Nat × α)} {i : Nat} {v : α}
    (h : mapGet m i = some v) : i ∈ mapKeys m := by
  induction m with
  | nil => simp [mapGet] at h
  | cons p rest ih =>
    obtain ⟨k, w⟩ := p
    by_cases hk : k = i
    · subst hk
      simp [mapKeys]
    · simp [mapGet, hk] at h
      have := ih h
      simp [mapKeys] at this ⊢
      exact Or.inr this

theorem mapGet_of_mem_nodup {α : Type} {m : List (Nat × α)} {i : Nat} {v : α}
    (hnd : (mapKeys m).Nodup) (h : (i, v) ∈ m) : mapGet m i = some v := by
  induction m with
  | nil => simp at h
  | cons p rest ih =>
    obtain ⟨k, w⟩ := p
    have hcons : mapKeys ((k, w) :: rest) = k :: mapKeys rest := rfl
    rw [hcons] at hnd
    obtain ⟨hknotin, hndrest⟩ := List.nodup_cons.mp hnd
    rcases List.mem_cons.mp h with he | hr
    · rw [Prod.mk.injEq] at he
      obtain ⟨rfl, rfl⟩ := he
      simp [mapGet]
    · have hk : k ≠ i := by
        intro hki
        subst hki
        exact hknotin (mem_mapKeys.mpr ⟨v, hr⟩)
      simp only [mapGet, if_neg hk]
      exact ih hndrest hr

theorem mapGet_mapSet_self {α : Type} {m : List (Nat × α)} {i : Nat} {v : α} :
    mapGet (mapSet m i v) i = some v := by
  induction m with
  | nil => simp [mapSet, mapGet]
  | cons p rest ih =>
    obtain ⟨k, w⟩ := p
    by_cases hk : k = i
    · subst hk
      simp [mapSet, mapGet]
    · simp [mapSet, hk, mapGet, ih]

theorem mapGet_mapSet_ne {α : Type} {m : List (Nat × α)} {i j : Nat} {v : α}
    (h : j ≠ i) : mapGet (mapSet m i v) j = mapGet m j := by
  have hij : i ≠ j := Ne.symm h
  induction m with
  | nil => simp [mapSet, mapGet, hij]
  | cons p rest ih =>
    obtain ⟨k, w⟩ := p
    by_cases hk : k = i
    · subst hk
      simp [mapSet, mapGet, hij]
    · simp [mapSet, hk, mapGet, ih]

theorem mapKeys_mapSet_of_mem {α : Type} {m : List (Nat × α)} {i : Nat} {v : α}
    (h : i ∈ mapKeys m) : mapKeys (mapSet m i v) = mapKeys m := by
  induction m with
  | nil => simp [mapKeys] at h
  | cons p rest ih =>
    obtain ⟨k, w⟩ := p
    by_cases hk : k = i
    · subst hk
      simp [mapSet, mapKeys]
    · have hmem : i ∈ mapKeys rest := by
        have hcons : mapKeys ((k, w) :: rest) = k :: mapKeys rest := rfl
        rw [hcons] at h
        rcases List.mem_cons.mp h with h1 | h1
        · exact absurd h1.symm hk
        · exact h1
      simp only [mapSet, if_neg hk]
      show k :: mapKeys (mapSet rest i v) = k :: mapKeys rest
      rw [ih hmem]

theorem mapGet_mapDelete_ne {α : Type} {m : List (Nat × α)} {i j : Nat}
    (h : j ≠ i) : mapGet (mapDelete m i) j = mapGet m j := by
  have hij : i ≠ j := Ne.symm h
  induction m with
  | nil => simp [mapDelete]
  | cons p rest ih =>
    obtain ⟨k, w⟩ := p
    by_cases hk : k = i
    · subst hk
      simp [mapDelete, mapGet, hij]
    · simp [mapDelete, hk, mapGet, ih]

theorem mapDelete_sublist {α : Type} (m : List (Nat × α)) (i : Nat) :
    (mapDelete m i).Sublist m := by
  induction m with
  | nil => simp [mapDelete]
  | cons p rest ih =>
    obtain ⟨k, w⟩ := p
    by_cases hk : k = i
    · subst hk
      simp only [mapDelete, if_pos rfl]
      exact rest.sublist_cons_self (k, w)
    · simp only [mapDelete, if_neg hk]
      exact ih.cons₂ (k, w)

theorem nodup_keys_mapDelete {α : Type} {m : List (Nat × α)} {i : Nat}
    (h : (mapKeys m).Nodup) : (mapKeys (mapDelete m i)).Nodup :=
  ((mapDelete_sublist m i).map Prod.fst).nodup h

theorem mem_keys_mapDelete {α : Type} {m : List (Nat × α)} {i j : Nat}
    (hnd : (mapKeys m).Nodup) :
    j ∈ mapKeys (mapDelete m i) ↔ j ∈ mapKeys m ∧ j ≠ i := by
  induction m with
  | nil => simp [mapDelete, mapKeys]
  | cons p rest ih =>
    obtain ⟨k, w⟩ := p
    have hcons : mapKeys ((k, w) :: rest) = k :: mapKeys rest := rfl
    rw [hcons] at hnd
    obtain ⟨hknotin, hndrest⟩ := List.nodup_cons.mp hnd
    by_cases hk : k = i
    · subst hk
      have hdel : mapDelete ((k, w) :: rest) k = rest := by simp [mapDelete]
      rw [hdel, hcons]
      constructor
      · intro hj
        refine ⟨List.mem_cons_of_mem _ hj, ?_⟩
        intro hji
        subst hji
        exact hknotin hj
      · rintro ⟨hj, hji⟩
        rcases List.mem_cons.mp hj with h1 | h1
        · exact absurd h1 hji
        · exact h1
    · have hdel : mapDelete ((k, w) :: rest) i = (k, w) :: mapDelete rest i := by
        simp [mapDelete, hk]
      have hcons2 : mapKeys ((k, w) :: mapDelete rest i) = k :: mapKeys (mapDelete rest i) := rfl
      rw [hdel, hcons, hcons2]
      simp only [List.mem_cons]
      constructor
      · intro hj
        rcases hj with rfl | hj
        · exact ⟨Or.inl rfl, hk⟩
        · have h2 := (ih hndrest).mp hj
          exact ⟨Or.inr h2.1, h2.2⟩
      · rintro ⟨hj | hj, hji⟩
        · exact Or.inl hj
        · exact Or.inr ((ih hndrest).mpr ⟨hj, hji⟩)

/-- The genuine entries currently held by pending promises in the Map. -/
def pendingVals (m : List (Nat × Option LogEntry)) : List LogEntry :=
  m.filterMap Prod.snd

theorem pendingVals_mapDelete_none {m : List (Nat × Option LogEntry)} {i : Nat}
    (h : mapGet m i = some none) :
    pendingVals (mapDelete m i) = pendingVals m := by
  induction m with
  | nil => simp [mapDelete]
  | cons p rest ih =>
    obtain ⟨k, w⟩ := p
    by_cases hk : k = i
    · subst hk
      simp only [mapGet, if_pos rfl] at h
      obtain rfl := Option.some.inj h
      simp only [mapDelete, if_pos rfl]
      rfl
    · simp only [mapGet, if_neg hk] at h
      have hih := ih h
      simp only [mapDelete, if_neg hk]
      cases w with
      | none =>
        show pendingVals (mapDelete rest i) = pendingVals rest
        exact hih
      | some y =>
        show y :: pendingVals (mapDelete rest i) = y :: pendingVals rest
        rw [hih]

theorem pendingVals_mapSet_drained {m : List (Nat × Option LogEntry)} {i : Nat}
    {e : LogEntry} (h : mapGet m i = some (some e)) :
    e ::ₘ (pendingVals (mapSet m i none) : Multiset LogEntry) =
      (pendingVals m : Multiset LogEntry) := by
  induction m with
  | nil => simp [mapGet] at h
  | cons p rest ih =>
    obtain ⟨k, w⟩ := p
    by_cases hk : k = i
    · subst hk
      simp only [mapGet, if_pos rfl] at h
      obtain rfl := Option.some.inj h
      simp only [mapSet, if_pos rfl]
      show e ::ₘ ((pendingVals rest : List LogEntry) : Multiset LogEntry) =
        ((e :: pendingVals rest : List LogEntry) : Multiset LogEntry)
      exact Multiset.cons_coe e _
    · simp only [mapGet, if_neg hk] at h
      have hih := ih h
      simp only [mapSet, if_neg hk]
      cases w with
      | none =>
        show e ::ₘ ((pendingVals (mapSet rest i none) : List LogEntry) : Multiset LogEntry) =
          ((pendingVals rest : List LogEntry) : Multiset LogEntry)
        exact hih
      | some y =>
        show e ::ₘ ((y :: pendingVals (mapSet rest i none) : List LogEntry) : Multiset LogEntry) =
          ((y :: pendingVals rest : List LogEntry) : Multiset LogEntry)
        rw [← Multiset.cons_coe, ← Multiset.cons_coe, Multiset.cons_swap, hih]

theorem pendingVals_mapSet_entry {m : List (Nat × Option LogEntry)} {i : Nat}
    {e x : LogEntry} (h : mapGet m i = some (some e)) :
    e ::ₘ (pendingVals (mapSet m i (some x)) : Multiset LogEntry) =
      x ::ₘ (pendingVals m : Multiset LogEntry) := by
  induction m with
  | nil => simp [mapGet] at h
  | cons p rest ih =>
    obtain ⟨k, w⟩ := p
    by_cases hk : k = i
    · subst hk
      simp only [mapGet, if_pos rfl] at h
      obtain rfl := Option.some.inj h
      simp only [mapSet, if_pos rfl]
      show e ::ₘ ((x :: pendingVals rest : List LogEntry) : Multiset LogEntry) =
        x ::ₘ ((e :: pendingVals rest : List LogEntry) : Multiset LogEntry)
      rw [← Multiset.cons_coe, ← Multiset.cons_coe]
      exact Multiset.cons_swap e x _
    · simp only [mapGet, if_neg hk] at h
      have hih := ih h
      simp only [mapSet, if_neg hk]
      cases w with
      | none =>
        show e ::ₘ ((pendingVals (mapSet rest i (some x)) : List LogEntry) : Multiset LogEntry) =
          x ::ₘ ((pendingVals rest : List LogEntry) : Multiset LogEntry)
        exact hih
      | some y =>
        show e ::ₘ ((y :: pendingVals (mapSet rest i (some x)) : List LogEntry) : Multiset LogEntry) =
          x ::ₘ ((y :: pendingVals rest : List LogEntry) : Multiset LogEntry)
        rw [← Multiset.cons_coe, ← Multiset.cons_coe, Multiset.cons_swap, hih, Multiset.cons_swap]

/-! ### Claim theorems on the blocking engine (C1, C3, C4, C5) -/

/-- C1: the claim says the blocking engine emits every entry produced by
every source before exhaustion, exactly once, globally sorted, then
signals done.  The code contradicts its own doc comment (it promises to
print each log entry in ascending order): the seeding reduce and the
loop both push onto the heap only when the pull result IS the sentinel
`false` (`logEntry === false`), so a genuine entry is dropped on the
floor.  On one source holding the single entry (date 5), the run pulls
the entry, discards it, and immediately signals done having printed
nothing. -/
theorem syncRun_drops_all_entries :
    syncRun 5 [[⟨5, "a"⟩]] =
      ([Event.pull 0 (some ⟨5, "a"⟩), Event.done], true) ∧
    printedEntries (syncRun 5 [[⟨5, "a"⟩]]).1 = [] ∧
    List.flatten [[(⟨5, "a"⟩ : LogEntry)]] = [⟨5, "a"⟩] := by
  refine ⟨?_, ?_, rfl⟩ <;> rfl

/-- C3: the claim says the blocking and pipelined engines emit identical
output sequences for the same source outputs.  On one source holding the
single entry (date 5), the pipelined engine prints that entry and the
blocking engine prints nothing, so the outputs differ. -/
theorem sync_async_outputs_differ :
    printedEntries (asyncRun 5 [[⟨5, "a"⟩]]).1 = [⟨5, "a"⟩] ∧
    printedEntries (syncRun 5 [[⟨5, "a"⟩]]).1 = [] ∧
    printedEntries (asyncRun 5 [[⟨5, "a"⟩]]).1 ≠
      printedEntries (syncRun 5 [[⟨5, "a"⟩]]).1 := by
  refine ⟨rfl, rfl, ?_⟩
  decide

theorem syncLoop_stuck_on_sentinel (fuel : Nat) :
    (syncLoop fuel [[]] [⟨none, 0⟩]).2 = false := by
  induction fuel with
  | zero => rfl
  | succ n ih =>
    show (syncLoop n [[]] [⟨none, 0⟩]).2 = false
    exact ih

/-- C4: the claim says both engine loops terminate for every finite set
of sources and completion is then signaled exactly once.  For the
blocking engine this fails: with a single source that is exhausted on
its very first pull, the seeding reduce pushes the sentinel element onto
the heap, and every loop iteration prints the sentinel, re-pulls the
drained source, gets `false` again and re-inserts it — the queue never
empties, the loop never exits, and `printer.done()` is never reached
(no fuel bound suffices). -/
theorem syncRun_never_finishes_on_drained_source :
    ∀ fuel, (syncRun fuel [[]]).2 = false := by
  intro fuel
  show (syncLoop fuel [[]] [⟨none, 0⟩]).2 = false
  exact syncLoop_stuck_on_sentinel fuel

/-- C5: the claim says that once a source has signaled exhaustion the
engine never calls pull on it again.  In the blocking engine, with a
single source exhausted on its first pull, the trace of the first two
loop iterations already shows three pulls of source 0, each returning
the exhaustion marker: the engine pulls the drained source again after
every sentinel it pops. -/
theorem syncRun_repulls_exhausted_source :
    (syncRun 2 [[]]).1 =
      [Event.pull 0 none, Event.print none, Event.pull 0 none,
        Event.print none, Event.pull 0 none] ∧
    2 ≤ (syncRun 2 [[]]).1.count (Event.pull 0 none) := by
  constructor
  · rfl
  · decide

/-! ### Claim theorems on the comparator (C8) -/

/-- C8 counterexample: the claim says the ordering structure breaks
timestamp ties deterministically by source index.  The comparator — the
sole sorting authority handed to the PriorityQueue — is
`(a, b) => a.logEntry.date - b.logEntry.date`: on two ranked entries
with equal dates and distinct source indices it returns 0 in both
orders, giving the structure no index information at all. -/
theorem cmpEntries_ignores_source_index :
    (⟨some ⟨5, "a"⟩, 0⟩ : RankedEntry).logSourceIndex ≠
      (⟨some ⟨5, "b"⟩, 1⟩ : RankedEntry).logSourceIndex ∧
    cmpEntries ⟨some ⟨5, "a"⟩, 0⟩ ⟨some ⟨5, "b"⟩, 1⟩ = 0 ∧
    cmpEntries ⟨some ⟨5, "b"⟩, 1⟩ ⟨some ⟨5, "a"⟩, 0⟩ = 0 := by
  refine ⟨by decide, rfl, rfl⟩

/-- C8 amended: the comparator used by both engines orders ranked
entries by timestamp ascending and nothing else: entries with equal
timestamps compare as equal regardless of their source indices (tie
order is whatever the heap's internal layout yields, not a source-index
rule). -/
theorem cmpEntries_orders_by_date_only :
    ∀ (x y : LogEntry) (i j : Nat),
      (cmpEntries ⟨some x, i⟩ ⟨some y, j⟩ < 0 ↔ x.date < y.date) ∧
      (cmpEntries ⟨some x, i⟩ ⟨some y, j⟩ = 0 ↔ x.date = y.date) ∧
      (0 < cmpEntries ⟨some x, i⟩ ⟨some y, j⟩ ↔ y.date < x.date) := by
  intro x y i j
  simp only [cmpEntries]
  omega

/-! ### Claim C9: the blocking engine's heap only ever holds sentinels -/

theorem syncSeed_queue_sentinels (idxs : List Nat) :
    ∀ srcs, ∀ re ∈ (syncSeed srcs idxs).2.1, re.logEntry = none := by
  induction idxs with
  | nil => intro srcs re hre; simp [syncSeed] at hre
  | cons i rest ih =>
    intro srcs re hre
    simp only [syncSeed] at hre
    rcases hp : popSource srcs i with ⟨r, srcs'⟩
    rw [hp] at hre
    rcases hs : syncSeed srcs' rest with ⟨srcs'', acc, evs⟩
    rw [hs] at hre
    cases r with
    | none =>
      simp at hre
      rcases hre with hre | hre
      · rw [hre]
      · have := ih srcs' re (by rw [hs]; exact hre)
        exact this
    | some e =>
      simp at hre
      exact ih srcs' re (by rw [hs]; exact hre)

theorem syncSeed_no_print (idxs : List Nat) :
    ∀ srcs, printedValues (syncSeed srcs idxs).2.2 = [] := by
  induction idxs with
  | nil => intro srcs; rfl
  | cons i rest ih =>
    intro srcs
    simp only [syncSeed]
    rcases hp : popSource srcs i with ⟨r, srcs'⟩
    rcases hs : syncSeed srcs' rest with ⟨srcs'', acc, evs⟩
    have hih := ih srcs'
    rw [hs] at hih
    cases r with
    | none => simpa [printedValues, List.filterMap_cons] using hih
    | some e => simpa [printedValues, List.filterMap_cons] using hih

theorem syncLoop_prints_sentinels (fuel : Nat) :
    ∀ srcs queue, (∀ re ∈ queue, re.logEntry = none) →
      ∀ v ∈ printedValues (syncLoop fuel srcs queue).1, v = none := by
  induction fuel with
  | zero => intro srcs queue hq v hv; simp [syncLoop, printedValues] at hv
  | succ n ih =>
    intro srcs queue hq v hv
    cases hm : popMin queue with
    | none =>
      simp only [syncLoop, hm] at hv
      simp [printedValues, List.filterMap_cons] at hv
    | some p =>
      obtain ⟨re, queue'⟩ := p
      have hre : re.logEntry = none := hq re (popMin_mem hm)
      have hq' : ∀ x ∈ queue', x.logEntry = none := fun x hx =>
        hq x (popMin_rest_subset hm x hx)
      rcases hp : popSource srcs re.logSourceIndex with ⟨r, srcs'⟩
      cases r with
      | none =>
        simp only [syncLoop, hm, hp, printedValues, List.filterMap_cons] at hv
        cases hv with
        | head => exact hre
        | tail b hv =>
          have hq'' : ∀ x ∈ queue' ++ [(⟨none, re.logSourceIndex⟩ : RankedEntry)],
              x.logEntry = none := by
            intro x hx
            rcases List.mem_append.mp hx with hx | hx
            · exact hq' x hx
            · simp at hx; rw [hx]
          exact ih srcs' _ hq'' v hv
      | some e =>
        simp only [syncLoop, hm, hp, printedValues, List.filterMap_cons] at hv
        cases hv with
        | head => exact hre
        | tail b hv => exact ih srcs' queue' hq' v hv

/-- C9: every element the blocking engine ever gives to the
PriorityQueue — at seeding and on every loop re-insertion — carries the
exhaustion sentinel `false` in its logEntry field (the seeding part is
the first conjunct; the loop only ever pushes literal sentinel records,
as its definition shows), and consequently no run of the blocking engine
ever passes a genuine log entry to `printer.print`: every printed value
is the sentinel. -/
theorem syncEngine_only_sentinels :
    ∀ srcs fuel,
      (∀ re ∈ (syncSeed srcs (List.range srcs.length)).2.1, re.logEntry = none) ∧
      (∀ v ∈ printedValues (syncRun fuel srcs).1, v = none) := by
  intro srcs fuel
  refine ⟨syncSeed_queue_sentinels _ srcs, ?_⟩
  intro v hv
  rcases hs : syncSeed srcs (List.range srcs.length) with ⟨srcs', q0, evs0⟩
  have hrun : (syncRun fuel srcs).1 = evs0 ++ (syncLoop fuel srcs' q0).1 := by
    simp only [syncRun, hs]
  rw [hrun] at hv
  rw [printedValues, List.filterMap_append] at hv
  rcases List.mem_append.mp hv with hv | hv
  · exfalso
    have h0 := syncSeed_no_print (List.range srcs.length) srcs
    rw [hs] at h0
    rw [printedValues] at h0
    rw [h0] at hv
    simp at hv
  · have hq0 : ∀ re ∈ q0, re.logEntry = none := by
      have := syncSeed_queue_sentinels (List.range srcs.length) srcs
      rw [hs] at this
      exact this
    exact syncLoop_prints_sentinels fuel srcs' q0 hq0 v hv

/-! ### Claim C10: the promise Map is empty when done() is signaled -/

theorem asyncSeedIssue_keys (idxs : List Nat) :
    ∀ srcs, mapKeys (asyncSeedIssue srcs idxs).2.1 = idxs := by
  induction idxs with
  | nil => intro srcs; rfl
  | cons i rest ih =>
    intro srcs
    rcases hp : popSource srcs i with ⟨r, srcs'⟩
    rcases hs : asyncSeedIssue srcs' rest with ⟨srcs'', m, evs⟩
    have hih := ih srcs'
    rw [hs] at hih
    simp only [asyncSeedIssue, hp, hs]
    show i :: mapKeys m = i :: rest
    rw [hih]

theorem asyncSeedAwait_keys :
    ∀ (entries : List (Nat × Option LogEntry)) (srcs : List (List LogEntry))
      (pmap : List (Nat × Option LogEntry)),
      (mapKeys pmap).Nodup → (entries.map Prod.fst).Nodup →
      (∀ p ∈ entries, p.1 ∈ mapKeys pmap) →
      (mapKeys (asyncSeedAwait srcs entries pmap).2.1).Nodup ∧
      (∀ j, j ∈ mapKeys (asyncSeedAwait srcs entries pmap).2.1 ↔
        ((j ∈ mapKeys pmap ∧ j ∉ entries.map Prod.fst) ∨
          j ∈ (asyncSeedAwait srcs entries pmap).2.2.1.map RankedEntry.logSourceIndex)) ∧
      ((asyncSeedAwait srcs entries pmap).2.2.1.map RankedEntry.logSourceIndex).Nodup ∧
      (∀ j ∈ (asyncSeedAwait srcs entries pmap).2.2.1.map RankedEntry.logSourceIndex,
        j ∈ entries.map Prod.fst) := by
  intro entries
  induction entries with
  | nil =>
    intro srcs pmap hnd hend hmem
    simp [asyncSeedAwait, hnd]
  | cons p rest ih =>
    obtain ⟨i, r⟩ := p
    intro srcs pmap hnd hend hmem
    have hinotrest : i ∉ rest.map Prod.fst := (List.nodup_cons.mp hend).1
    have hendrest : (rest.map Prod.fst).Nodup := (List.nodup_cons.mp hend).2
    have hikeys : i ∈ mapKeys pmap := hmem (i, r) (List.mem_cons_self _ _)
    cases r with
    | none =>
      have hndd : (mapKeys (mapDelete pmap i)).Nodup := nodup_keys_mapDelete hnd
      have hmemd : ∀ q ∈ rest, q.1 ∈ mapKeys (mapDelete pmap i) := by
        intro q hq
        have hq1 : q.1 ∈ mapKeys pmap := hmem q (List.mem_cons_of_mem _ hq)
        have hq2 : q.1 ≠ i := by
          intro hqi
          exact hinotrest (hqi ▸ List.mem_map_of_mem Prod.fst hq)
        exact (mem_keys_mapDelete hnd).mpr ⟨hq1, hq2⟩
      obtain ⟨c1, c2, c3, c4⟩ := ih srcs (mapDelete pmap i) hndd hendrest hmemd
      rcases ha : asyncSeedAwait srcs rest (mapDelete pmap i) with ⟨srcs', pmap', acc, evs⟩
      rw [ha] at c1 c2 c3 c4
      have hunfold : asyncSeedAwait srcs ((i, none) :: rest) pmap =
          (srcs', pmap', acc, Event.await i none :: evs) := by
        simp only [asyncSeedAwait, ha]
      rw [hunfold]
      refine ⟨c1, ?_, c3, ?_⟩
      · intro j
        rw [c2 j, mem_keys_mapDelete hnd]
        constructor
        · rintro (⟨⟨hj1, hj2⟩, hj3⟩ | hj)
          · exact Or.inl ⟨hj1, by simp [hj2, hj3]⟩
          · exact Or.inr hj
        · rintro (⟨hj1, hj2⟩ | hj)
          · have hji : j ≠ i := fun h => hj2 (List.mem_cons.mpr (Or.inl h))
            have hjr : j ∉ rest.map Prod.fst := fun h => hj2 (List.mem_cons.mpr (Or.inr h))
            exact Or.inl ⟨⟨hj1, hji⟩, hjr⟩
          · exact Or.inr hj
      · intro j hj
        exact List.mem_cons_of_mem _ (c4 j hj)
    | some e =>
      rcases hp : popSource srcs i with ⟨r', srcs2⟩
      have hkeyset : mapKeys (mapSet pmap i r') = mapKeys pmap := mapKeys_mapSet_of_mem hikeys
      have hnds : (mapKeys (mapSet pmap i r')).Nodup := hkeyset ▸ hnd
      have hmems : ∀ q ∈ rest, q.1 ∈ mapKeys (mapSet pmap i r') := by
        intro q hq
        rw [hkeyset]
        exact hmem q (List.mem_cons_of_mem _ hq)
      obtain ⟨c1, c2, c3, c4⟩ := ih srcs2 (mapSet pmap i r') hnds hendrest hmems
      rcases ha : asyncSeedAwait srcs2 rest (mapSet pmap i r') with ⟨srcs', pmap', acc, evs⟩
      rw [ha] at c1 c2 c3 c4
      have hunfold : asyncSeedAwait srcs ((i, some e) :: rest) pmap =
          (srcs', pmap', ⟨some e, i⟩ :: acc,
            Event.await i (some e) :: Event.issue i :: evs) := by
        simp only [asyncSeedAwait, hp, ha]
      rw [hunfold]
      have haccsub : ∀ j ∈ acc.map RankedEntry.logSourceIndex, j ∈ rest.map Prod.fst := c4
      refine ⟨c1, ?_, ?_, ?_⟩
      · intro j
        rw [c2 j, hkeyset]
        show (j ∈ mapKeys pmap ∧ j ∉ rest.map Prod.fst) ∨ j ∈ acc.map RankedEntry.logSourceIndex ↔
          (j ∈ mapKeys pmap ∧ j ∉ (i :: rest.map Prod.fst)) ∨
            j ∈ i :: acc.map RankedEntry.logSourceIndex
        constructor
        · rintro (⟨hj1, hj2⟩ | hj)
          · by_cases hji : j = i
            · exact Or.inr (hji ▸ List.mem_cons_self _ _)
            · exact Or.inl ⟨hj1, by simp [hj2, hji]⟩
          · exact Or.inr (List.mem_cons_of_mem _ hj)
        · rintro (⟨hj1, hj2⟩ | hj)
          · have hjr : j ∉ rest.map Prod.fst := fun h => hj2 (List.mem_cons.mpr (Or.inr h))
            exact Or.inl ⟨hj1, hjr⟩
          · rcases List.mem_cons.mp hj with rfl | hj
            · exact Or.inl ⟨hikeys, hinotrest⟩
            · exact Or.inr hj
      · show (i :: acc.map RankedEntry.logSourceIndex).Nodup
        refine List.nodup_cons.mpr ⟨?_, c3⟩
        intro hmem2
        exact hinotrest (haccsub i hmem2)
      · intro j hj
        rcases List.mem_cons.mp hj with rfl | hj
        · exact List.mem_cons_self _ _
        · exact List.mem_cons_of_mem _ (haccsub j hj)

theorem asyncLoop_keys (fuel : Nat) :
    ∀ srcs pmap queue,
      (∀ j ∈ mapKeys pmap, j ∈ queue.map RankedEntry.logSourceIndex) →
      (queue.map RankedEntry.logSourceIndex).Nodup →
      (mapKeys pmap).Nodup →
      ∀ evs m, asyncLoop fuel srcs pmap queue = (evs, some m) → m = [] := by
  induction fuel with
  | zero =>
    intro srcs pmap queue hsub hqnd hknd evs m heq
    simp [asyncLoop] at heq
  | succ n ih =>
    intro srcs pmap queue hsub hqnd hknd evs m heq
    cases hm : popMin queue with
    | none =>
      have hqnil : queue = [] := popMin_eq_none.mp hm
      subst hqnil
      simp only [asyncLoop, hm] at heq
      obtain ⟨-, hpm⟩ := Prod.mk.injEq .. ▸ heq
      have hkeysnil : mapKeys pmap = [] := by
        apply List.eq_nil_iff_forall_not_mem.mpr
        intro j hj
        simpa using hsub j hj
      have : pmap = [] := by
        cases pmap with
        | nil => rfl
        | cons q rest => simp [mapKeys] at hkeysnil
      rw [this] at hpm
      exact (Option.some.inj hpm).symm
    | some p =>
      obtain ⟨re, queue'⟩ := p
      have hpermidx : (queue.map RankedEntry.logSourceIndex).Perm
          (re.logSourceIndex :: queue'.map RankedEntry.logSourceIndex) := by
        have := (popMin_perm hm).map RankedEntry.logSourceIndex
        simpa using this
      have hqnd' : (queue'.map RankedEntry.logSourceIndex).Nodup :=
        (List.nodup_cons.mp (hpermidx.nodup_iff.mp hqnd)).2
      have hinotq' : re.logSourceIndex ∉ queue'.map RankedEntry.logSourceIndex :=
        (List.nodup_cons.mp (hpermidx.nodup_iff.mp hqnd)).1
      cases hget : mapGet pmap re.logSourceIndex with
      | none =>
        simp only [asyncLoop, hm, hget] at heq
        obtain ⟨-, hpm⟩ := Prod.mk.injEq .. ▸ heq
        simp at hpm
      | some r =>
        cases r with
        | none =>
          rcases hrec : asyncLoop n srcs (mapDelete pmap re.logSourceIndex) queue'
            with ⟨evs', fin'⟩
          simp only [asyncLoop, hm, hget, hrec] at heq
          obtain ⟨-, hpm⟩ := Prod.mk.injEq .. ▸ heq
          refine ih srcs (mapDelete pmap re.logSourceIndex) queue' ?_ hqnd'
            (nodup_keys_mapDelete hknd) evs' m (by rw [hrec, hpm])
          intro j hj
          obtain ⟨hj1, hj2⟩ := (mem_keys_mapDelete hknd).mp hj
          have := hpermidx.subset (hsub j hj1)
          rcases List.mem_cons.mp this with h1 | h1
          · exact absurd h1 hj2
          · exact h1
        | some e =>
          rcases hp : popSource srcs re.logSourceIndex with ⟨r', srcs'⟩
          rcases hrec : asyncLoop n srcs' (mapSet pmap re.logSourceIndex r')
            (queue' ++ [⟨some e, re.logSourceIndex⟩]) with ⟨evs', fin'⟩
          simp only [asyncLoop, hm, hget, hp, hrec] at heq
          obtain ⟨-, hpm⟩ := Prod.mk.injEq .. ▸ heq
          have hikeys : re.logSourceIndex ∈ mapKeys pmap := mem_keys_of_mapGet hget
          have hkeyset : mapKeys (mapSet pmap re.logSourceIndex r') = mapKeys pmap :=
            mapKeys_mapSet_of_mem hikeys
          have hmapidx : (queue' ++ [(⟨some e, re.logSourceIndex⟩ : RankedEntry)]).map
              RankedEntry.logSourceIndex =
              queue'.map RankedEntry.logSourceIndex ++ [re.logSourceIndex] := by
            simp
          refine ih srcs' (mapSet pmap re.logSourceIndex r')
            (queue' ++ [⟨some e, re.logSourceIndex⟩]) ?_ ?_ (hkeyset ▸ hknd) evs' m
            (by rw [hrec, hpm])
          · intro j hj
            rw [hkeyset] at hj
            rw [hmapidx]
            have := hpermidx.subset (hsub j hj)
            rcases List.mem_cons.mp this with h1 | h1
            · exact List.mem_append.mpr (Or.inr (by simp [h1]))
            · exact List.mem_append.mpr (Or.inl h1)
          · rw [hmapidx]
            have hperm2 : (queue'.map RankedEntry.logSourceIndex ++ [re.logSourceIndex]).Perm
                (re.logSourceIndex :: queue'.map RankedEntry.logSourceIndex) :=
              List.perm_append_singleton _ _
            exact hperm2.nodup_iff.mpr (List.nodup_cons.mpr ⟨hinotq', hqnd'⟩)

/-- C10: whenever the pipelined engine signals completion, the
index-to-promise Map is empty — every source index was deleted from the
Map when its fetch resolved to the exhaustion marker, so no fetch is
outstanding when `printer.done()` runs. -/
theorem asyncRun_done_map_empty :
    ∀ srcs fuel evs m, asyncRun fuel srcs = (evs, some m) → m = [] := by
  intro srcs fuel evs m heq
  rcases h1 : asyncSeedIssue srcs (List.range srcs.length) with ⟨srcs1, pmap0, evs1⟩
  have hkeys0 : mapKeys pmap0 = List.range srcs.length := by
    have := asyncSeedIssue_keys (List.range srcs.length) srcs
    rw [h1] at this
    exact this
  have hnd0 : (mapKeys pmap0).Nodup := by rw [hkeys0]; exact List.nodup_range _
  have hmem0 : ∀ p ∈ pmap0, p.1 ∈ mapKeys pmap0 := fun p hp =>
    List.mem_map_of_mem Prod.fst hp
  obtain ⟨c1, c2, c3, c4⟩ := asyncSeedAwait_keys pmap0 srcs1 pmap0 hnd0 hnd0 hmem0
  rcases h2 : asyncSeedAwait srcs1 pmap0 pmap0 with ⟨srcs2, pmap1, ranked, evs2⟩
  rw [h2] at c1 c2 c3 c4
  rcases h3 : asyncLoop fuel srcs2 pmap1 ranked with ⟨evs3, fin3⟩
  simp only [asyncRun, h1, h2, h3] at heq
  obtain ⟨-, hfin⟩ := Prod.mk.injEq .. ▸ heq
  refine asyncLoop_keys fuel srcs2 pmap1 ranked ?_ c3 c1 evs3 m (by rw [h3, hfin])
  intro j hj
  rcases (c2 j).mp hj with ⟨hj1, hj2⟩ | hj3
  · exact absurd hj1 hj2
  · exact hj3

/-- Witness for C10 at a concrete input: one source with one entry. -/
theorem asyncRun_done_map_empty_witness :
    asyncRun 3 [[(⟨1, "a"⟩ : LogEntry)]] =
      ([Event.issue 0, Event.await 0 (some ⟨1, "a"⟩), Event.issue 0,
        Event.print (some ⟨1, "a"⟩), Event.await 0 none, Event.done], some []) ∧
    ([] : List (Nat × Option LogEntry)) = [] :=
  ⟨rfl, asyncRun_done_map_empty [[⟨1, "a"⟩]] 3 _ [] rfl⟩

/-! ### Claim C7: a failing pull propagates, aborting the run -/

/-- The error contract of a run against possibly failing sources:
`printer.done()` runs exactly once if the run finished and never
otherwise (in particular never after an abort); the run aborts exactly
when an error was raised (errors are never swallowed, and no abort
happens without an error); and an error event, if any, is the very last
event — nothing is retried or executed after a raise, so the sink
received exactly the prints that happened before the failing pull. -/
def ErrContract (res : List EventE × Outcome) : Prop :=
  doneCountE res.1 = (if res.2 = Outcome.finished then 1 else 0) ∧
  (errFreeE res.1 = true ↔ res.2 ≠ Outcome.aborted) ∧
  errAtEndOnly res.1 = true

theorem errAtEndOnly_of_errFree {evs : List EventE} (h : errFreeE evs = true) :
    errAtEndOnly evs = true := by
  induction evs with
  | nil => rfl
  | cons e rest ih =>
    have he : isErrE e = false := by
      have := (List.all_eq_true.mp h) e (List.mem_cons_self _ _)
      simpa using this
    have hrest : errFreeE rest = true := by
      apply List.all_eq_true.mpr
      intro x hx
      exact (List.all_eq_true.mp h) x (List.mem_cons_of_mem _ hx)
    simp [errAtEndOnly, he, ih hrest]

theorem errAtEndOnly_append {a b : List EventE} (ha : errFreeE a = true)
    (hb : errAtEndOnly b = true) : errAtEndOnly (a ++ b) = true := by
  induction a with
  | nil => simpa using hb
  | cons e rest ih =>
    have he : isErrE e = false := by
      have := (List.all_eq_true.mp ha) e (List.mem_cons_self _ _)
      simpa using this
    have hrest : errFreeE rest = true := by
      apply List.all_eq_true.mpr
      intro x hx
      exact (List.all_eq_true.mp ha) x (List.mem_cons_of_mem _ hx)
    simp [errAtEndOnly, he, ih hrest]

theorem errFreeE_append {a b : List EventE} :
    errFreeE (a ++ b) = (errFreeE a && errFreeE b) := by
  simp [errFreeE, List.all_append]

theorem doneCountE_append {a b : List EventE} :
    doneCountE (a ++ b) = doneCountE a + doneCountE b := by
  simp [doneCountE, List.count_append]

theorem syncLoopE_contract (fuel : Nat) :
    ∀ srcs queue, ErrContract (syncLoopE fuel srcs queue) := by
  induction fuel with
  | zero =>
    intro srcs queue
    refine ⟨rfl, ?_, rfl⟩
    show errFreeE [] = true ↔ Outcome.fuelOut ≠ Outcome.aborted
    simp [errFreeE]
  | succ n ih =>
    intro srcs queue
    cases hm : popMin queue with
    | none =>
      simp only [syncLoopE, hm]
      exact ⟨rfl, by simp [errFreeE, doneCountE, isErrE], rfl⟩
    | some p =>
      obtain ⟨re, queue'⟩ := p
      rcases hp : popSourceE srcs re.logSourceIndex with ⟨r, srcs'⟩
      cases r with
      | err =>
        simp only [syncLoopE, hm, hp]
        refine ⟨by simp [doneCountE], by simp [errFreeE, isErrE], by simp [errAtEndOnly, isErrE]⟩
      | drained =>
        rcases hl : syncLoopE n srcs' (queue' ++ [⟨none, re.logSourceIndex⟩]) with ⟨evs', out'⟩
        obtain ⟨a1, a2, a3⟩ := ih srcs' (queue' ++ [⟨none, re.logSourceIndex⟩])
        rw [hl] at a1 a2 a3
        simp only [syncLoopE, hm, hp, hl]
        refine ⟨by simpa [doneCountE] using a1, by simpa [errFreeE, isErrE] using a2,
          by simpa [errAtEndOnly, isErrE] using a3⟩
      | entry e =>
        rcases hl : syncLoopE n srcs' queue' with ⟨evs', out'⟩
        obtain ⟨a1, a2, a3⟩ := ih srcs' queue'
        rw [hl] at a1 a2 a3
        simp only [syncLoopE, hm, hp, hl]
        refine ⟨by simpa [doneCountE] using a1, by simpa [errFreeE, isErrE] using a2,
          by simpa [errAtEndOnly, isErrE] using a3⟩

theorem syncSeedE_contract (idxs : List Nat) :
    ∀ srcs,
      doneCountE (syncSeedE srcs idxs).2.2.1 = 0 ∧
      (errFreeE (syncSeedE srcs idxs).2.2.1 = true ↔ (syncSeedE srcs idxs).2.2.2 = true) ∧
      errAtEndOnly (syncSeedE srcs idxs).2.2.1 = true := by
  induction idxs with
  | nil =>
    intro srcs
    refine ⟨rfl, ?_, rfl⟩
    show errFreeE [] = true ↔ true = true
    simp [errFreeE]
  | cons i rest ih =>
    intro srcs
    rcases hp : popSourceE srcs i with ⟨r, srcs'⟩
    cases r with
    | err =>
      simp only [syncSeedE, hp]
      exact ⟨by simp [doneCountE], by simp [errFreeE, isErrE], by simp [errAtEndOnly, isErrE]⟩
    | drained =>
      rcases hs : syncSeedE srcs' rest with ⟨srcs'', acc, evs, ok⟩
      obtain ⟨a1, a2, a3⟩ := ih srcs'
      rw [hs] at a1 a2 a3
      simp only [syncSeedE, hp, hs]
      exact ⟨by simpa [doneCountE] using a1, by simpa [errFreeE, isErrE] using a2,
        by simpa [errAtEndOnly, isErrE] using a3⟩
    | entry e =>
      rcases hs : syncSeedE srcs' rest with ⟨srcs'', acc, evs, ok⟩
      obtain ⟨a1, a2, a3⟩ := ih srcs'
      rw [hs] at a1 a2 a3
      simp only [syncSeedE, hp, hs]
      exact ⟨by simpa [doneCountE] using a1, by simpa [errFreeE, isErrE] using a2,
        by simpa [errAtEndOnly, isErrE] using a3⟩

theorem syncRunE_contract (fuel : Nat) (srcs : List (List PullResult)) :
    ErrContract (syncRunE fuel srcs) := by
  rcases hs : syncSeedE srcs (List.range srcs.length) with ⟨srcs', q0, evs0, ok⟩
  obtain ⟨s1, s2, s3⟩ := syncSeedE_contract (List.range srcs.length) srcs
  rw [hs] at s1 s2 s3
  cases ok with
  | true =>
    rcases hl : syncLoopE fuel srcs' q0 with ⟨evs, out⟩
    obtain ⟨a1, a2, a3⟩ := syncLoopE_contract fuel srcs' q0
    rw [hl] at a1 a2 a3
    have hrun : syncRunE fuel srcs = (evs0 ++ evs, out) := by
      simp only [syncRunE, hs, hl]
      rfl
    rw [hrun]
    have hfree0 : errFreeE evs0 = true := s2.mpr rfl
    refine ⟨?_, ?_, ?_⟩
    · simp only [doneCountE_append, s1, a1]
      omega
    · simp only [errFreeE_append, hfree0, Bool.true_and]
      exact a2
    · exact errAtEndOnly_append hfree0 a3
  | false =>
    have hrun : syncRunE fuel srcs = (evs0, Outcome.aborted) := by
      simp only [syncRunE, hs]
      rfl
    rw [hrun]
    refine ⟨by simpa using s1, ?_, s3⟩
    constructor
    · intro hfree
      exact absurd (s2.mp hfree) (by simp)
    · intro hne
      exact absurd rfl hne

theorem asyncSeedIssueE_contract (idxs : List Nat) :
    ∀ srcs,
      doneCountE (asyncSeedIssueE srcs idxs).2.2 = 0 ∧
      errFreeE (asyncSeedIssueE srcs idxs).2.2 = true := by
  induction idxs with
  | nil => intro srcs; exact ⟨rfl, rfl⟩
  | cons i rest ih =>
    intro srcs
    rcases hp : popSourceE srcs i with ⟨r, srcs'⟩
    rcases hs : asyncSeedIssueE srcs' rest with ⟨srcs'', m, evs⟩
    obtain ⟨a1, a2⟩ := ih srcs'
    rw [hs] at a1 a2
    simp only [asyncSeedIssueE, hp, hs]
    exact ⟨by simpa [doneCountE] using a1, by simpa [errFreeE, isErrE] using a2⟩

theorem asyncSeedAwaitE_contract :
    ∀ (entries : List (Nat × PullResult)) (srcs : List (List PullResult))
      (pmap : List (Nat × PullResult)),
      doneCountE (asyncSeedAwaitE srcs entries pmap).2.2.2.1 = 0 ∧
      (errFreeE (asyncSeedAwaitE srcs entries pmap).2.2.2.1 = true ↔
        (asyncSeedAwaitE srcs entries pmap).2.2.2.2 = true) ∧
      errAtEndOnly (asyncSeedAwaitE srcs entries pmap).2.2.2.1 = true := by
  intro entries
  induction entries with
  | nil =>
    intro srcs pmap
    refine ⟨rfl, ?_, rfl⟩
    show errFreeE [] = true ↔ true = true
    simp [errFreeE]
  | cons p rest ih =>
    obtain ⟨i, r⟩ := p
    intro srcs pmap
    cases r with
    | err =>
      simp only [asyncSeedAwaitE]
      exact ⟨by simp [doneCountE], by simp [errFreeE, isErrE], by simp [errAtEndOnly, isErrE]⟩
    | drained =>
      rcases hs : asyncSeedAwaitE srcs rest (mapDelete pmap i) with ⟨srcs', pmap', acc, evs, ok⟩
      obtain ⟨a1, a2, a3⟩ := ih srcs (mapDelete pmap i)
      rw [hs] at a1 a2 a3
      simp only [asyncSeedAwaitE, hs]
      exact ⟨by simpa [doneCountE] using a1, by simpa [errFreeE, isErrE] using a2,
        by simpa [errAtEndOnly, isErrE] using a3⟩
    | entry e =>
      rcases hp : popSourceE srcs i with ⟨r', srcs2⟩
      rcases hs : asyncSeedAwaitE srcs2 rest (mapSet pmap i r') with ⟨srcs', pmap', acc, evs, ok⟩
      obtain ⟨a1, a2, a3⟩ := ih srcs2 (mapSet pmap i r')
      rw [hs] at a1 a2 a3
      simp only [asyncSeedAwaitE, hp, hs]
      exact ⟨by simpa [doneCountE] using a1, by simpa [errFreeE, isErrE] using a2,
        by simpa [errAtEndOnly, isErrE] using a3⟩

theorem asyncLoopE_contract (fuel : Nat) :
    ∀ srcs pmap queue, ErrContract (asyncLoopE fuel srcs pmap queue) := by
  induction fuel with
  | zero =>
    intro srcs pmap queue
    refine ⟨rfl, ?_, rfl⟩
    show errFreeE [] = true ↔ Outcome.fuelOut ≠ Outcome.aborted
    simp [errFreeE]
  | succ n ih =>
    intro srcs pmap queue
    cases hm : popMin queue with
    | none =>
      simp only [asyncLoopE, hm]
      exact ⟨rfl, by simp [errFreeE, doneCountE, isErrE], rfl⟩
    | some p =>
      obtain ⟨re, queue'⟩ := p
      cases hget : mapGet pmap re.logSourceIndex with
      | none =>
        simp only [asyncLoopE, hm, hget]
        exact ⟨by simp [doneCountE], by simp [errFreeE, isErrE], by simp [errAtEndOnly, isErrE]⟩
      | some r =>
        cases r with
        | err =>
          simp only [asyncLoopE, hm, hget]
          exact ⟨by simp [doneCountE], by simp [errFreeE, isErrE],
            by simp [errAtEndOnly, isErrE]⟩
        | drained =>
          rcases hl : asyncLoopE n srcs (mapDelete pmap re.logSourceIndex) queue'
            with ⟨evs', out'⟩
          obtain ⟨a1, a2, a3⟩ := ih srcs (mapDelete pmap re.logSourceIndex) queue'
          rw [hl] at a1 a2 a3
          simp only [asyncLoopE, hm, hget, hl]
          exact ⟨by simpa [doneCountE] using a1, by simpa [errFreeE, isErrE] using a2,
            by simpa [errAtEndOnly, isErrE] using a3⟩
        | entry e =>
          rcases hp : popSourceE srcs re.logSourceIndex with ⟨r', srcs'⟩
          rcases hl : asyncLoopE n srcs' (mapSet pmap re.logSourceIndex r')
            (queue' ++ [⟨some e, re.logSourceIndex⟩]) with ⟨evs', out'⟩
          obtain ⟨a1, a2, a3⟩ := ih srcs' (mapSet pmap re.logSourceIndex r')
            (queue' ++ [⟨some e, re.logSourceIndex⟩])
          rw [hl] at a1 a2 a3
          simp only [asyncLoopE, hm, hget, hp, hl]
          exact ⟨by simpa [doneCountE] using a1, by simpa [errFreeE, isErrE] using a2,
            by simpa [errAtEndOnly, isErrE] using a3⟩

theorem asyncRunE_contract (fuel : Nat) (srcs : List (List PullResult)) :
    ErrContract (asyncRunE fuel srcs) := by
  rcases h1 : asyncSeedIssueE srcs (List.range srcs.length) with ⟨srcs1, pmap0, evs1⟩
  obtain ⟨i1, i2⟩ := asyncSeedIssueE_contract (List.range srcs.length) srcs
  rw [h1] at i1 i2
  rcases h2 : asyncSeedAwaitE srcs1 pmap0 pmap0 with ⟨srcs2, pmap1, ranked, evs2, ok⟩
  obtain ⟨s1, s2, s3⟩ := asyncSeedAwaitE_contract pmap0 srcs1 pmap0
  rw [h2] at s1 s2 s3
  cases ok with
  | true =>
    rcases h3 : asyncLoopE fuel srcs2 pmap1 ranked with ⟨evs3, out⟩
    obtain ⟨a1, a2, a3⟩ := asyncLoopE_contract fuel srcs2 pmap1 ranked
    rw [h3] at a1 a2 a3
    have hrun : asyncRunE fuel srcs = (evs1 ++ evs2 ++ evs3, out) := by
      simp only [asyncRunE, h1, h2, h3]
      rfl
    rw [hrun]
    have hfree2 : errFreeE evs2 = true := s2.mpr rfl
    refine ⟨?_, ?_, ?_⟩
    · simp only [doneCountE_append, i1, s1, a1]
      omega
    · simp only [errFreeE_append, i2, hfree2, Bool.true_and]
      exact a2
    · refine errAtEndOnly_append ?_ a3
      simp [errFreeE_append, i2, hfree2]
  | false =>
    have hrun : asyncRunE fuel srcs = (evs1 ++ evs2, Outcome.aborted) := by
      simp only [asyncRunE, h1, h2]
      rfl
    rw [hrun]
    refine ⟨?_, ?_, ?_⟩
    · simp only [doneCountE_append, i1, s1]
      simp
    · constructor
      · intro hfree
        rw [errFreeE_append, i2, Bool.true_and] at hfree
        exact absurd (s2.mp hfree) (by simp)
      · intro hne
        exact absurd rfl hne
    · refine errAtEndOnly_append i2 s3

/-- C7: in both engines an error raised by a pull (blocking engine) or a
rejected fetch (pipelined engine) is never caught or retried: the run
aborts exactly when an error occurred; no completion signal is ever sent
on an abort (done runs exactly once on a finished run and zero times
otherwise); and the error event is always the final event of the trace,
so the sink received exactly the prints made before the failing pull. -/
theorem engines_error_propagation :
    ∀ (srcs : List (List PullResult)) (fuel : Nat),
      ErrContract (syncRunE fuel srcs) ∧ ErrContract (asyncRunE fuel srcs) := by
  intro srcs fuel
  exact ⟨syncRunE_contract fuel srcs, asyncRunE_contract fuel srcs⟩

/-! ### Claim C6: one outstanding fetch per still-active index

We count, along the event trace of a pipelined run, how many fetches
were issued and how many were awaited for each source index.  At a
suspension point (just before an await resolves), the outstanding
fetches for index i are the issues minus the awaits so far; a source
index is still active if it was ever issued and has not yet resolved to
the exhaustion marker. -/

def issueCount (evs : List Event) (i : Nat) : Nat :=
  evs.countP fun e =>
    match e with
    | Event.issue j => j == i
    | _ => false

def awaitCount (evs : List Event) (i : Nat) : Nat :=
  evs.countP fun e =>
    match e with
    | Event.await j _ => j == i
    | _ => false

/-- Index i has had at least one fetch issued in the trace prefix. -/
def issuedIn (evs : List Event) (i : Nat) : Prop := 0 < issueCount evs i

/-- Index i has resolved to the exhaustion marker in the trace prefix. -/
def exhaustedIn (evs : List Event) (i : Nat) : Prop := Event.await i none ∈ evs

/-- At this point of the trace, every still-active index has exactly one
outstanding fetch: issued = awaited + 1 (never zero, never two). -/
def OneOutstanding (p : List Event) : Prop :=
  ∀ i, issuedIn p i → ¬ exhaustedIn p i → issueCount p i = awaitCount p i + 1

/-- The pipelining discipline along a trace segment, relative to the
prefix p already emitted: every await event in the segment happens at a
point where each still-active index has exactly one outstanding fetch,
and an await that yields a genuine entry is immediately followed by the
re-issue for the same index. -/
def BalancedFrom (p : List Event) : List Event → Prop
  | [] => True
  | e :: rest =>
    ((∃ j r, e = Event.await j r) → OneOutstanding p) ∧
    (∀ j x, e = Event.await j (some x) → rest.head? = some (Event.issue j)) ∧
    BalancedFrom (p ++ [e]) rest

theorem balancedFrom_split :
    ∀ (q p t : List Event), BalancedFrom p t →
      ∀ j r rest, t = q ++ Event.await j r :: rest →
        OneOutstanding (p ++ q) ∧
        (∀ x, r = some x → rest.head? = some (Event.issue j)) := by
  intro q
  induction q with
  | nil =>
    intro p t h j r rest ht
    subst ht
    refine ⟨by simpa using h.1 ⟨j, r, rfl⟩, fun x hx => h.2.1 j x (by rw [hx])⟩
  | cons a q' ih =>
    intro p t h j r rest ht
    subst ht
    have h3 := h.2.2
    have hres := ih (p ++ [a]) _ h3 j r rest rfl
    rwa [List.append_assoc, List.singleton_append] at hres

theorem balancedFrom_append :
    ∀ (xs : List Event) (p ys : List Event), BalancedFrom p xs →
      BalancedFrom (p ++ xs) ys → BalancedFrom p (xs ++ ys) := by
  intro xs
  induction xs with
  | nil =>
    intro p ys _ hy
    simpa using hy
  | cons a xs' ih =>
    intro p ys hx hy
    refine ⟨hx.1, ?_, ?_⟩
    · intro j x he
      have := hx.2.1 j x he
      cases xs' with
      | nil => simp at this
      | cons c xs'' => simpa using this
    · refine ih (p ++ [a]) ys hx.2.2 ?_
      rwa [List.append_assoc, List.singleton_append]

theorem balancedFrom_of_no_await :
    ∀ (t : List Event) (p : List Event), (∀ e ∈ t, ∀ j r, e ≠ Event.await j r) →
      BalancedFrom p t := by
  intro t
  induction t with
  | nil => intro p _; trivial
  | cons a rest ih =>
    intro p h
    refine ⟨?_, ?_, ih (p ++ [a]) fun e he => h e (List.mem_cons_of_mem _ he)⟩
    · rintro ⟨j, r, rfl⟩
      exact absurd rfl (h _ (List.mem_cons_self _ _) j r)
    · intro j x hx
      exact absurd hx (h _ (List.mem_cons_self _ _) j (some x))

theorem issueCount_append_one {p : List Event} {e : Event} {i : Nat} :
    issueCount (p ++ [e]) i =
      issueCount p i + (match e with | Event.issue j => if j = i then 1 else 0 | _ => 0) := by
  simp only [issueCount, List.countP_append, List.countP_cons, List.countP_nil]
  cases e <;> simp [Nat.beq_eq_true_eq]

theorem awaitCount_append_one {p : List Event} {e : Event} {i : Nat} :
    awaitCount (p ++ [e]) i =
      awaitCount p i + (match e with | Event.await j _ => if j = i then 1 else 0 | _ => 0) := by
  simp only [awaitCount, List.countP_append, List.countP_cons, List.countP_nil]
  cases e <;> simp [Nat.beq_eq_true_eq]

theorem exhaustedIn_append_one {p : List Event} {e : Event} {i : Nat} :
    exhaustedIn (p ++ [e]) i ↔ exhaustedIn p i ∨ e = Event.await i none := by
  simp [exhaustedIn, List.mem_append, eq_comm]

theorem issuedIn_append_one {p : List Event} {e : Event} {i : Nat}
    (h : ∀ j, e ≠ Event.issue j) : issuedIn (p ++ [e]) i ↔ issuedIn p i := by
  have : issueCount (p ++ [e]) i = issueCount p i := by
    rw [issueCount_append_one]
    cases e <;> first
      | rfl
      | exact absurd rfl (h _)
  simp [issuedIn, this]

/-- The prefix-counting state the pipelined engine maintains: keys of
the promise map are exactly the still-active indices, each with exactly
one outstanding fetch; all other indices are fully resolved. -/
def CountsOk (p : List Event) (pmap : List (Nat × Option LogEntry)) : Prop :=
  (∀ i, i ∈ mapKeys pmap → issueCount p i = awaitCount p i + 1) ∧
  (∀ i, i ∉ mapKeys pmap → issueCount p i = awaitCount p i) ∧
  (∀ i, issuedIn p i → ¬ exhaustedIn p i → i ∈ mapKeys pmap)

theorem CountsOk.oneOutstanding {p : List Event} {pmap : List (Nat × Option LogEntry)}
    (h : CountsOk p pmap) : OneOutstanding p := fun i h1 h2 => h.1 i (h.2.2 i h1 h2)

theorem countsOk_print {p : List Event} {pmap : List (Nat × Option LogEntry)}
    (h : CountsOk p pmap) (v : Option LogEntry) : CountsOk (p ++ [Event.print v]) pmap := by
  obtain ⟨c1, c2, c3⟩ := h
  have hic : ∀ i, issueCount (p ++ [Event.print v]) i = issueCount p i := by
    intro i; rw [issueCount_append_one]; rfl
  have hac : ∀ i, awaitCount (p ++ [Event.print v]) i = awaitCount p i := by
    intro i; rw [awaitCount_append_one]; rfl
  refine ⟨fun i hi => by rw [hic, hac]; exact c1 i hi,
    fun i hi => by rw [hic, hac]; exact c2 i hi, ?_⟩
  intro i hiss hexh
  have hiss' : issuedIn p i := (issuedIn_append_one (by intro j h; exact nomatch h)).mp hiss
  have hexh' : ¬ exhaustedIn p i := by
    intro hx
    exact hexh ((exhaustedIn_append_one).mpr (Or.inl hx))
  exact c3 i hiss' hexh'

theorem countsOk_await_drained {p : List Event} {pmap : List (Nat × Option LogEntry)}
    {i : Nat} (h : CountsOk p pmap) (hik : i ∈ mapKeys pmap)
    (hnd : (mapKeys pmap).Nodup) :
    CountsOk (p ++ [Event.await i none]) (mapDelete pmap i) := by
  obtain ⟨c1, c2, c3⟩ := h
  have hic : ∀ j, issueCount (p ++ [Event.await i none]) j = issueCount p j := by
    intro j; rw [issueCount_append_one]; rfl
  have hac : ∀ j, awaitCount (p ++ [Event.await i none]) j =
      awaitCount p j + (if i = j then 1 else 0) := by
    intro j; rw [awaitCount_append_one]
  refine ⟨?_, ?_, ?_⟩
  · intro j hj
    obtain ⟨hj1, hj2⟩ := (mem_keys_mapDelete hnd).mp hj
    rw [hic, hac, if_neg (fun hh => hj2 hh.symm)]
    exact c1 j hj1
  · intro j hj
    by_cases hji : j = i
    · subst hji
      rw [hic, hac, if_pos rfl]
      have := c1 j hik
      omega
    · have hj' : j ∉ mapKeys pmap := by
        intro hmem
        exact hj ((mem_keys_mapDelete hnd).mpr ⟨hmem, hji⟩)
      rw [hic, hac, if_neg (fun hh => hji hh.symm)]
      have := c2 j hj'
      omega
  · intro j hiss hexh
    have hji : j ≠ i := by
      intro hh
      subst hh
      exact hexh ((exhaustedIn_append_one).mpr (Or.inr rfl))
    have hiss' : issuedIn p j := (issuedIn_append_one (by intro k h; exact nomatch h)).mp hiss
    have hexh' : ¬ exhaustedIn p j := by
      intro hx
      exact hexh ((exhaustedIn_append_one).mpr (Or.inl hx))
    exact (mem_keys_mapDelete hnd).mpr ⟨c3 j hiss' hexh', hji⟩

theorem countsOk_await_entry {p : List Event} {pmap : List (Nat × Option LogEntry)}
    {i : Nat} {e : LogEntry} {v : Option LogEntry}
    (h : CountsOk p pmap) (hik : i ∈ mapKeys pmap) :
    CountsOk (p ++ [Event.await i (some e), Event.issue i]) (mapSet pmap i v) := by
  obtain ⟨c1, c2, c3⟩ := h
  have hsplit : p ++ [Event.await i (some e), Event.issue i] =
      (p ++ [Event.await i (some e)]) ++ [Event.issue i] := by
    simp
  have hkeys : mapKeys (mapSet pmap i v) = mapKeys pmap := mapKeys_mapSet_of_mem hik
  have hic : ∀ j, issueCount (p ++ [Event.await i (some e), Event.issue i]) j =
      issueCount p j + (if i = j then 1 else 0) := by
    intro j
    rw [hsplit, issueCount_append_one, issueCount_append_one]
    rfl
  have hac : ∀ j, awaitCount (p ++ [Event.await i (some e), Event.issue i]) j =
      awaitCount p j + (if i = j then 1 else 0) := by
    intro j
    rw [hsplit, awaitCount_append_one, awaitCount_append_one]
    rfl
  have hexh : ∀ j, exhaustedIn (p ++ [Event.await i (some e), Event.issue i]) j ↔
      exhaustedIn p j := by
    intro j
    rw [hsplit, exhaustedIn_append_one, exhaustedIn_append_one]
    constructor
    · rintro ((hx | hx) | hx)
      · exact hx
      · exact nomatch hx
      · exact nomatch hx
    · intro hx
      exact Or.inl (Or.inl hx)
  refine ⟨?_, ?_, ?_⟩
  · intro j hj
    rw [hkeys] at hj
    rw [hic, hac]
    have := c1 j hj
    omega
  · intro j hj
    rw [hkeys] at hj
    have := c2 j hj
    rw [hic, hac]
    omega
  · intro j hiss hexh'
    rw [hkeys]
    by_cases hji : j = i
    · subst hji; exact hik
    · have hiss' : issuedIn p j := by
        have := hic j
        rw [if_neg (fun hh => hji hh.symm)] at this
        simpa [issuedIn, this] using hiss
      have hexh'' : ¬ exhaustedIn p j := fun hx => hexh' ((hexh j).mpr hx)
      exact c3 j hiss' hexh''

theorem asyncSeedIssue_evs (idxs : List Nat) :
    ∀ srcs, (asyncSeedIssue srcs idxs).2.2 = idxs.map Event.issue := by
  induction idxs with
  | nil => intro srcs; rfl
  | cons i rest ih =>
    intro srcs
    rcases hp : popSource srcs i with ⟨r, srcs'⟩
    rcases hs : asyncSeedIssue srcs' rest with ⟨srcs'', m, evs⟩
    have hih := ih srcs'
    rw [hs] at hih
    have hih2 : evs = List.map Event.issue rest := hih
    simp only [asyncSeedIssue, hp, hs, List.map_cons]
    show Event.issue i :: evs = Event.issue i :: rest.map Event.issue
    rw [hih2]

theorem issueCount_map_issue (idxs : List Nat) (i : Nat) :
    issueCount (idxs.map Event.issue) i = idxs.count i := by
  induction idxs with
  | nil => rfl
  | cons j rest ih =>
    simp only [List.map_cons, issueCount, List.countP_cons] at ih ⊢
    rw [ih]
    by_cases hji : j = i
    · subst hji
      simp [List.count_cons]
    · simp [List.count_cons, hji, Ne.symm hji]

theorem awaitCount_map_issue (idxs : List Nat) (i : Nat) :
    awaitCount (idxs.map Event.issue) i = 0 := by
  induction idxs with
  | nil => rfl
  | cons j rest ih =>
    simp only [List.map_cons, awaitCount, List.countP_cons] at ih ⊢
    simp [ih]

theorem not_exhaustedIn_map_issue (idxs : List Nat) (i : Nat) :
    ¬ exhaustedIn (idxs.map Event.issue) i := by
  intro h
  obtain ⟨j, _, hj⟩ := List.mem_map.mp h
  exact nomatch hj

theorem no_await_in_map_issue (idxs : List Nat) :
    ∀ e ∈ idxs.map Event.issue, ∀ j r, e ≠ Event.await j r := by
  intro e he j r
  obtain ⟨k, _, hk⟩ := List.mem_map.mp he
  intro hcon
  rw [← hk] at hcon
  exact nomatch hcon

theorem countsOk_seed_issue (srcs : List (List LogEntry)) :
    CountsOk ((List.range srcs.length).map Event.issue)
      (asyncSeedIssue srcs (List.range srcs.length)).2.1 := by
  have hkeys : mapKeys (asyncSeedIssue srcs (List.range srcs.length)).2.1 =
      List.range srcs.length := asyncSeedIssue_keys _ srcs
  refine ⟨?_, ?_, ?_⟩
  · intro i hi
    rw [hkeys] at hi
    rw [issueCount_map_issue, awaitCount_map_issue,
      List.count_eq_one_of_mem (List.nodup_range _) hi]
  · intro i hi
    rw [hkeys] at hi
    rw [issueCount_map_issue, awaitCount_map_issue, List.count_eq_zero.mpr hi]
  · intro i hiss _
    rw [hkeys]
    rw [issuedIn, issueCount_map_issue] at hiss
    exact List.count_pos_iff.mp hiss

theorem asyncSeedAwait_balanced :
    ∀ (entries : List (Nat × Option LogEntry)) (srcs : List (List LogEntry))
      (pmap : List (Nat × Option LogEntry)) (p : List Event),
      CountsOk p pmap →
      (entries.map Prod.fst).Nodup →
      (∀ q ∈ entries, q.1 ∈ mapKeys pmap) →
      (mapKeys pmap).Nodup →
      BalancedFrom p (asyncSeedAwait srcs entries pmap).2.2.2 ∧
      CountsOk (p ++ (asyncSeedAwait srcs entries pmap).2.2.2)
        (asyncSeedAwait srcs entries pmap).2.1 := by
  intro entries
  induction entries with
  | nil =>
    intro srcs pmap p hc hnd hmem hknd
    refine ⟨trivial, ?_⟩
    show CountsOk (p ++ []) pmap
    simpa using hc
  | cons q rest ih =>
    obtain ⟨i, r⟩ := q
    intro srcs pmap p hc hnd hmem hknd
    have hinotrest : i ∉ rest.map Prod.fst := (List.nodup_cons.mp hnd).1
    have hndrest : (rest.map Prod.fst).Nodup := (List.nodup_cons.mp hnd).2
    have hikeys : i ∈ mapKeys pmap := hmem (i, r) (List.mem_cons_self _ _)
    cases r with
    | none =>
      have hc' : CountsOk (p ++ [Event.await i none]) (mapDelete pmap i) :=
        countsOk_await_drained hc hikeys hknd
      have hmem' : ∀ q ∈ rest, q.1 ∈ mapKeys (mapDelete pmap i) := by
        intro q hq
        have hq1 : q.1 ∈ mapKeys pmap := hmem q (List.mem_cons_of_mem _ hq)
        have hq2 : q.1 ≠ i := fun hqi =>
          hinotrest (hqi ▸ List.mem_map_of_mem Prod.fst hq)
        exact (mem_keys_mapDelete hknd).mpr ⟨hq1, hq2⟩
      obtain ⟨hb', hc''⟩ := ih srcs (mapDelete pmap i) (p ++ [Event.await i none])
        hc' hndrest hmem' (nodup_keys_mapDelete hknd)
      rcases ha : asyncSeedAwait srcs rest (mapDelete pmap i) with ⟨srcs', pmap', acc, evs⟩
      rw [ha] at hb' hc''
      have hunfold : asyncSeedAwait srcs ((i, none) :: rest) pmap =
          (srcs', pmap', acc, Event.await i none :: evs) := by
        simp only [asyncSeedAwait, ha]
      rw [hunfold]
      refine ⟨⟨fun _ => hc.oneOutstanding, ?_, hb'⟩, ?_⟩
      · intro j x hx
        exact nomatch hx
      · show CountsOk (p ++ (Event.await i none :: evs)) pmap'
        have : p ++ (Event.await i none :: evs) = (p ++ [Event.await i none]) ++ evs := by
          simp
        rw [this]
        exact hc''
    | some e =>
      rcases hp : popSource srcs i with ⟨r', srcs2⟩
      have hc' : CountsOk (p ++ [Event.await i (some e), Event.issue i])
          (mapSet pmap i r') := countsOk_await_entry hc hikeys
      have hkeyset : mapKeys (mapSet pmap i r') = mapKeys pmap := mapKeys_mapSet_of_mem hikeys
      have hmem' : ∀ q ∈ rest, q.1 ∈ mapKeys (mapSet pmap i r') := by
        intro q hq
        rw [hkeyset]
        exact hmem q (List.mem_cons_of_mem _ hq)
      obtain ⟨hb', hc''⟩ := ih srcs2 (mapSet pmap i r')
        (p ++ [Event.await i (some e), Event.issue i]) hc' hndrest hmem'
        (hkeyset ▸ hknd)
      rcases ha : asyncSeedAwait srcs2 rest (mapSet pmap i r') with ⟨srcs', pmap', acc, evs⟩
      rw [ha] at hb' hc''
      have hunfold : asyncSeedAwait srcs ((i, some e) :: rest) pmap =
          (srcs', pmap', ⟨some e, i⟩ :: acc,
            Event.await i (some e) :: Event.issue i :: evs) := by
        simp only [asyncSeedAwait, hp, ha]
      rw [hunfold]
      refine ⟨⟨fun _ => hc.oneOutstanding, ?_, ?_, ?_, ?_⟩, ?_⟩
      · intro j x hx
        have hji : j = i := by
          injection hx with h1 h2
          exact h1.symm
        subst hji
        rfl
      · rintro ⟨j, rr, hx⟩
        exact nomatch hx
      · intro j x hx
        exact nomatch hx
      · show BalancedFrom ((p ++ [Event.await i (some e)]) ++ [Event.issue i]) evs
        have : (p ++ [Event.await i (some e)]) ++ [Event.issue i] =
            p ++ [Event.await i (some e), Event.issue i] := by
          simp
        rw [this]
        exact hb'
      · show CountsOk (p ++ (Event.await i (some e) :: Event.issue i :: evs)) pmap'
        have : p ++ (Event.await i (some e) :: Event.issue i :: evs) =
            (p ++ [Event.await i (some e), Event.issue i]) ++ evs := by
          simp
        rw [this]
        exact hc''

theorem asyncLoop_balanced (fuel : Nat) :
    ∀ srcs pmap queue p,
      CountsOk p pmap →
      (∀ re ∈ queue, re.logSourceIndex ∈ mapKeys pmap) →
      (queue.map RankedEntry.logSourceIndex).Nodup →
      (mapKeys pmap).Nodup →
      BalancedFrom p (asyncLoop fuel srcs pmap queue).1 := by
  induction fuel with
  | zero =>
    intro srcs pmap queue p _ _ _ _
    trivial
  | succ n ih =>
    intro srcs pmap queue p hc hqm hqnd hknd
    cases hm : popMin queue with
    | none =>
      have hunfold : (asyncLoop (n + 1) srcs pmap queue).1 = [Event.done] := by
        simp only [asyncLoop, hm]
      rw [hunfold]
      refine ⟨?_, ?_, trivial⟩
      · rintro ⟨j, r, h⟩
        exact nomatch h
      · intro j x h
        exact nomatch h
    | some pq =>
      obtain ⟨re, queue'⟩ := pq
      have hpermidx : (queue.map RankedEntry.logSourceIndex).Perm
          (re.logSourceIndex :: queue'.map RankedEntry.logSourceIndex) := by
        have := (popMin_perm hm).map RankedEntry.logSourceIndex
        simpa using this
      have hqnd' : (queue'.map RankedEntry.logSourceIndex).Nodup :=
        (List.nodup_cons.mp (hpermidx.nodup_iff.mp hqnd)).2
      have hinotq' : re.logSourceIndex ∉ queue'.map RankedEntry.logSourceIndex :=
        (List.nodup_cons.mp (hpermidx.nodup_iff.mp hqnd)).1
      have hikeys : re.logSourceIndex ∈ mapKeys pmap := hqm re (popMin_mem hm)
      cases hget : mapGet pmap re.logSourceIndex with
      | none =>
        have hunfold : (asyncLoop (n + 1) srcs pmap queue).1 = [Event.print re.logEntry] := by
          simp only [asyncLoop, hm, hget]
        rw [hunfold]
        refine ⟨?_, ?_, trivial⟩
        · rintro ⟨j, r, h⟩
          exact nomatch h
        · intro j x h
          exact nomatch h
      | some r =>
        cases r with
        | none =>
          rcases hl : asyncLoop n srcs (mapDelete pmap re.logSourceIndex) queue'
            with ⟨evs', fin'⟩
          have hunfold : (asyncLoop (n + 1) srcs pmap queue).1 =
              Event.print re.logEntry :: Event.await re.logSourceIndex none :: evs' := by
            simp only [asyncLoop, hm, hget, hl]
          rw [hunfold]
          have hcp : CountsOk (p ++ [Event.print re.logEntry]) pmap :=
            countsOk_print hc re.logEntry
          have hcp2 : CountsOk ((p ++ [Event.print re.logEntry]) ++
              [Event.await re.logSourceIndex none]) (mapDelete pmap re.logSourceIndex) :=
            countsOk_await_drained hcp hikeys hknd
          have hqm' : ∀ x ∈ queue', x.logSourceIndex ∈
              mapKeys (mapDelete pmap re.logSourceIndex) := by
            intro x hx
            have hxk : x.logSourceIndex ∈ mapKeys pmap := hqm x (popMin_rest_subset hm x hx)
            have hxne : x.logSourceIndex ≠ re.logSourceIndex := by
              intro hh
              exact hinotq' (hh ▸ List.mem_map_of_mem RankedEntry.logSourceIndex hx)
            exact (mem_keys_mapDelete hknd).mpr ⟨hxk, hxne⟩
          have hrec := ih srcs (mapDelete pmap re.logSourceIndex) queue'
            ((p ++ [Event.print re.logEntry]) ++ [Event.await re.logSourceIndex none])
            hcp2 hqm' hqnd' (nodup_keys_mapDelete hknd)
          rw [hl] at hrec
          refine ⟨?_, ?_, ⟨fun _ => hcp.oneOutstanding, ?_, ?_⟩⟩
          · rintro ⟨j, r, h⟩
            exact nomatch h
          · intro j x h
            exact nomatch h
          · intro j x h
            exact nomatch h
          · show BalancedFrom ((p ++ [Event.print re.logEntry]) ++
              [Event.await re.logSourceIndex none]) evs'
            exact hrec
        | some e =>
          rcases hp : popSource srcs re.logSourceIndex with ⟨r', srcs'⟩
          rcases hl : asyncLoop n srcs' (mapSet pmap re.logSourceIndex r')
            (queue' ++ [⟨some e, re.logSourceIndex⟩]) with ⟨evs', fin'⟩
          have hunfold : (asyncLoop (n + 1) srcs pmap queue).1 =
              Event.print re.logEntry :: Event.await re.logSourceIndex (some e) ::
                Event.issue re.logSourceIndex :: evs' := by
            simp only [asyncLoop, hm, hget, hp, hl]
          rw [hunfold]
          have hcp : CountsOk (p ++ [Event.print re.logEntry]) pmap :=
            countsOk_print hc re.logEntry
          have hcp2 : CountsOk ((p ++ [Event.print re.logEntry]) ++
              [Event.await re.logSourceIndex (some e), Event.issue re.logSourceIndex])
              (mapSet pmap re.logSourceIndex r') :=
            countsOk_await_entry hcp hikeys
          have hkeyset : mapKeys (mapSet pmap re.logSourceIndex r') = mapKeys pmap :=
            mapKeys_mapSet_of_mem hikeys
          have hqm' : ∀ x ∈ queue' ++ [(⟨some e, re.logSourceIndex⟩ : RankedEntry)],
              x.logSourceIndex ∈ mapKeys (mapSet pmap re.logSourceIndex r') := by
            intro x hx
            rw [hkeyset]
            rcases List.mem_append.mp hx with hx | hx
            · exact hqm x (popMin_rest_subset hm x hx)
            · simp at hx
              rw [hx]
              exact hikeys
          have hqnd2 : ((queue' ++ [(⟨some e, re.logSourceIndex⟩ : RankedEntry)]).map
              RankedEntry.logSourceIndex).Nodup := by
            have hmapidx : (queue' ++ [(⟨some e, re.logSourceIndex⟩ : RankedEntry)]).map
                RankedEntry.logSourceIndex =
                queue'.map RankedEntry.logSourceIndex ++ [re.logSourceIndex] := by
              simp
            rw [hmapidx]
            exact (List.perm_append_singleton _ _).nodup_iff.mpr
              (List.nodup_cons.mpr ⟨hinotq', hqnd'⟩)
          have hrec := ih srcs' (mapSet pmap re.logSourceIndex r')
            (queue' ++ [⟨some e, re.logSourceIndex⟩])
            ((p ++ [Event.print re.logEntry]) ++
              [Event.await re.logSourceIndex (some e), Event.issue re.logSourceIndex])
            hcp2 hqm' hqnd2 (hkeyset ▸ hknd)
          rw [hl] at hrec
          refine ⟨?_, ?_, ⟨fun _ => hcp.oneOutstanding, ?_, ?_, ?_, ?_⟩⟩
          · rintro ⟨j, r, h⟩
            exact nomatch h
          · intro j x h
            exact nomatch h
          · intro j x hx
            have hji : j = re.logSourceIndex := by
              injection hx with h1 h2
              exact h1.symm
            subst hji
            rfl
          · rintro ⟨j, r, h⟩
            exact nomatch h
          · intro j x h
            exact nomatch h
          · show BalancedFrom (((p ++ [Event.print re.logEntry]) ++
              [Event.await re.logSourceIndex (some e)]) ++ [Event.issue re.logSourceIndex]) evs'
            have heq : ((p ++ [Event.print re.logEntry]) ++
                [Event.await re.logSourceIndex (some e)]) ++ [Event.issue re.logSourceIndex] =
                (p ++ [Event.print re.logEntry]) ++
                  [Event.await re.logSourceIndex (some e), Event.issue re.logSourceIndex] := by
              simp
            rw [heq]
            exact hrec

/-- C6: along every trace of the pipelined engine, at every suspension
point (each await event), every still-active source index — issued at
least once and not yet resolved to the exhaustion marker — has exactly
one outstanding fetch: issues = awaits + 1, never zero, never two.
Moreover an await that yields a genuine entry is immediately followed by
the re-issue of the next fetch for the same index. -/
theorem asyncRun_pipelining_invariant :
    ∀ (srcs : List (List LogEntry)) (fuel : Nat) (q rest : List Event) (j : Nat)
      (r : Option LogEntry),
      (asyncRun fuel srcs).1 = q ++ Event.await j r :: rest →
      (∀ i, issuedIn q i → ¬ exhaustedIn q i → issueCount q i = awaitCount q i + 1) ∧
      (∀ x, r = some x → rest.head? = some (Event.issue j)) := by
  intro srcs fuel q rest j r heq
  rcases h1 : asyncSeedIssue srcs (List.range srcs.length) with ⟨srcs1, pmap0, evs1⟩
  have hevs1 : evs1 = (List.range srcs.length).map Event.issue := by
    have h := asyncSeedIssue_evs (List.range srcs.length) srcs
    rw [h1] at h
    exact h
  have hkeys0 : mapKeys pmap0 = List.range srcs.length := by
    have h := asyncSeedIssue_keys (List.range srcs.length) srcs
    rw [h1] at h
    exact h
  have hnd0 : (mapKeys pmap0).Nodup := by rw [hkeys0]; exact List.nodup_range _
  have hc1 : CountsOk evs1 pmap0 := by
    have h := countsOk_seed_issue srcs
    rw [h1] at h
    rw [hevs1]
    exact h
  have hmem0 : ∀ p ∈ pmap0, p.1 ∈ mapKeys pmap0 := fun p hp =>
    List.mem_map_of_mem Prod.fst hp
  rcases h2 : asyncSeedAwait srcs1 pmap0 pmap0 with ⟨srcs2, pmap1, ranked, evs2⟩
  obtain ⟨hb2, hc2⟩ := asyncSeedAwait_balanced pmap0 srcs1 pmap0 evs1 hc1 hnd0 hmem0 hnd0
  rw [h2] at hb2 hc2
  have hb2' : BalancedFrom evs1 evs2 := hb2
  have hc2' : CountsOk (evs1 ++ evs2) pmap1 := hc2
  obtain ⟨k1, k2, k3, k4⟩ := asyncSeedAwait_keys pmap0 srcs1 pmap0 hnd0 hnd0 hmem0
  rw [h2] at k1 k2 k3 k4
  have k1' : (mapKeys pmap1).Nodup := k1
  have k3' : (ranked.map RankedEntry.logSourceIndex).Nodup := k3
  have hqm : ∀ re ∈ ranked, re.logSourceIndex ∈ mapKeys pmap1 := by
    intro re hre
    exact (k2 _).mpr (Or.inr (List.mem_map_of_mem _ hre))
  rcases h3 : asyncLoop fuel srcs2 pmap1 ranked with ⟨evs3, fin3⟩
  have hb3 : BalancedFrom (evs1 ++ evs2) evs3 := by
    have h := asyncLoop_balanced fuel srcs2 pmap1 ranked (evs1 ++ evs2) hc2' hqm k3' k1'
    rw [h3] at h
    exact h
  have hb1 : BalancedFrom [] evs1 :=
    balancedFrom_of_no_await evs1 [] (by rw [hevs1]; exact no_await_in_map_issue _)
  have hb23 : BalancedFrom evs1 (evs2 ++ evs3) := balancedFrom_append evs2 evs1 evs3 hb2' hb3
  have hball : BalancedFrom [] (evs1 ++ (evs2 ++ evs3)) :=
    balancedFrom_append evs1 [] (evs2 ++ evs3) hb1 (by simpa using hb23)
  have htr : (asyncRun fuel srcs).1 = evs1 ++ (evs2 ++ evs3) := by
    simp only [asyncRun, h1, h2, h3]
    rw [List.append_assoc]
  obtain ⟨hone, hprompt⟩ := balancedFrom_split q [] (evs1 ++ (evs2 ++ evs3)) hball j r rest
    (by rw [← htr]; exact heq)
  exact ⟨by simpa using hone, hprompt⟩

/-- Witness for C6 at a concrete input: one source with one entry; the
split is taken at the first await of the run. -/
theorem asyncRun_pipelining_invariant_witness :
    (asyncRun 3 [[(⟨1, "a"⟩ : LogEntry)]]).1 =
      [Event.issue 0] ++ Event.await 0 (some ⟨1, "a"⟩) ::
        [Event.issue 0, Event.print (some ⟨1, "a"⟩), Event.await 0 none, Event.done] ∧
    ((∀ i, issuedIn [Event.issue 0] i → ¬ exhaustedIn [Event.issue 0] i →
        issueCount [Event.issue 0] i = awaitCount [Event.issue 0] i + 1) ∧
      (∀ x, (some (⟨1, "a"⟩ : LogEntry)) = some x →
        [Event.issue 0, Event.print (some ⟨1, "a"⟩), Event.await 0 none,
          Event.done].head? = some (Event.issue 0))) :=
  ⟨rfl, asyncRun_pipelining_invariant [[⟨1, "a"⟩]] 3 [Event.issue 0]
    [Event.issue 0, Event.print (some ⟨1, "a"⟩), Event.await 0 none, Event.done]
    0 (some ⟨1, "a"⟩) rfl⟩

/-! ### Claim C2: the pipelined engine's output contract

The spec's Testable Property asserts a globally sorted output for
sources producing "arbitrarily ordered-internally" sequences.  The code
cannot do that (no engine could look ahead into a source): a single
source yielding dates 5 then 1 makes the engine print 5 before 1.  The
contract does hold under the Source Contract assumption of section 4.1
(a source never produces an entry smaller than one it already yielded),
which we take as each source's entry list being non-decreasing by date. -/

/-- C2 counterexample: one source yielding dates 5 then 1 (finite,
internally unordered).  The pipelined engine prints 5 then 1, so the
concatenated output is not non-decreasing by timestamp. -/
theorem asyncRun_unsorted_source_cx :
    printedDates (asyncRun 5 [[⟨5, "x"⟩, ⟨1, "y"⟩]]).1 = [5, 1] ∧
    ¬ (printedDates (asyncRun 5 [[⟨5, "x"⟩, ⟨1, "y"⟩]]).1).Chain' (· ≤ ·) := by
  refine ⟨rfl, ?_⟩
  rw [show printedDates (asyncRun 5 [[⟨5, "x"⟩, ⟨1, "y"⟩]]).1 = [5, 1] from rfl]
  intro h
  have h1 : (5 : Int) ≤ 1 := (List.chain'_cons.mp h).1
  omega

/-- The genuine entries currently resident in the ordering structure. -/
def queueVals (q : List RankedEntry) : List LogEntry :=
  q.filterMap RankedEntry.logEntry

/-- Entries not yet printed: still inside the sources, held by a pending
promise, or resident in the ordering structure. -/
def remainingMS (srcs : List (List LogEntry)) (pmap : List (Nat × Option LogEntry))
    (queue : List RankedEntry) : Multiset LogEntry :=
  (srcs.flatten : Multiset LogEntry) + (pendingVals pmap : Multiset LogEntry) +
    (queueVals queue : Multiset LogEntry)

/-- Decreasing measure of the pipelined engine's loop. -/
def loopMeasure (srcs : List (List LogEntry)) (pmap : List (Nat × Option LogEntry))
    (queue : List RankedEntry) : Nat :=
  srcs.flatten.length + (pendingVals pmap).length + queue.length

/-- An optional lower bound on dates (none before anything is printed,
the date of the last print afterwards). -/
def LBound (b : Option Int) (d : Int) : Prop := ∀ c, b = some c → c ≤ d

/-- The indices whose snapshot value in the seeding Map is a genuine
entry (the indices that survive seeding as active). -/
def activeKeys (entries : List (Nat × Option LogEntry)) : List Nat :=
  entries.filterMap fun pq =>
    match pq.2 with
    | some _ => some pq.1
    | none => none

theorem activeKeys_subset_keys {entries : List (Nat × Option LogEntry)} {j : Nat}
    (h : j ∈ activeKeys entries) : j ∈ entries.map Prod.fst := by
  obtain ⟨pq, hpq, he⟩ := List.mem_filterMap.mp h
  rcases hv : pq.2 with _ | e
  · rw [hv] at he; exact nomatch he
  · rw [hv] at he
    have : pq.1 = j := by simpa using he
    rw [← this]
    exact List.mem_map_of_mem Prod.fst hpq

theorem mem_activeKeys_of_some {entries : List (Nat × Option LogEntry)} {j : Nat}
    {e : LogEntry} (h : (j, some e) ∈ entries) : j ∈ activeKeys entries :=
  List.mem_filterMap.mpr ⟨(j, some e), h, rfl⟩

theorem queueVals_length_of_some {q : List RankedEntry}
    (h : ∀ re ∈ q, re.logEntry.isSome = true) : (queueVals q).length = q.length := by
  induction q with
  | nil => rfl
  | cons re rest ih =>
    obtain ⟨e, he⟩ := Option.isSome_iff_exists.mp (h re (List.mem_cons_self _ _))
    have hrest := ih fun x hx => h x (List.mem_cons_of_mem _ hx)
    simp [queueVals, List.filterMap_cons, he] at hrest ⊢
    exact hrest

theorem queueVals_append {a b : List RankedEntry} :
    queueVals (a ++ b) = queueVals a ++ queueVals b := by
  simp [queueVals, List.filterMap_append]

/-- The invariant relating the loop state of the pipelined engine,
with b the optional lower bound for everything still to print. -/
structure LoopInv (b : Option Int) (srcs : List (List LogEntry))
    (pmap : List (Nat × Option LogEntry)) (queue : List RankedEntry) : Prop where
  keysNodup : (mapKeys pmap).Nodup
  queueNodup : (queue.map RankedEntry.logSourceIndex).Nodup
  queueSome : ∀ re ∈ queue, re.logEntry.isSome = true
  keysIff : ∀ i, i ∈ mapKeys pmap ↔ i ∈ queue.map RankedEntry.logSourceIndex
  srcsSorted : ∀ i, (getSource srcs i).Pairwise fun a b => a.date ≤ b.date
  pmapDrained : ∀ i, mapGet pmap i = some none → getSource srcs i = []
  pmapEntry : ∀ i e, mapGet pmap i = some (some e) → ∀ x ∈ getSource srcs i, e.date ≤ x.date
  inactive : ∀ i, i ∉ mapKeys pmap → getSource srcs i = []
  queueBound : ∀ re ∈ queue, ∀ x, re.logEntry = some x → LBound b x.date
  chainCond : ∀ re ∈ queue, ∀ x e, re.logEntry = some x →
    mapGet pmap re.logSourceIndex = some (some e) → x.date ≤ e.date

theorem asyncSeedIssue_full (idxs : List Nat) :
    ∀ srcs, idxs.Nodup →
      (∀ j, j ∉ idxs →
        getSource (asyncSeedIssue srcs idxs).1 j = getSource srcs j) ∧
      (∀ i r, (i, r) ∈ (asyncSeedIssue srcs idxs).2.1 →
        (r = none ∧ getSource srcs i = [] ∧
          getSource (asyncSeedIssue srcs idxs).1 i = []) ∨
        (∃ e, r = some e ∧
          getSource srcs i = e :: getSource (asyncSeedIssue srcs idxs).1 i)) ∧
      ((srcs.flatten : Multiset LogEntry) =
        (pendingVals (asyncSeedIssue srcs idxs).2.1 : Multiset LogEntry) +
          ((asyncSeedIssue srcs idxs).1.flatten : Multiset LogEntry)) ∧
      (asyncSeedIssue srcs idxs).1.length = srcs.length := by
  induction idxs with
  | nil =>
    intro srcs _
    refine ⟨fun j _ => rfl, fun i r h => absurd h (List.not_mem_nil _), ?_, rfl⟩
    show (srcs.flatten : Multiset LogEntry) = (([] : List LogEntry) : Multiset LogEntry) +
      (srcs.flatten : Multiset LogEntry)
    simp
  | cons i rest ih =>
    intro srcs hnd
    have hinotrest : i ∉ rest := (List.nodup_cons.mp hnd).1
    have hndrest : rest.Nodup := (List.nodup_cons.mp hnd).2
    rcases hcase : getSource srcs i with _ | ⟨e, t⟩
    · have hp : popSource srcs i = (none, srcs) := popSource_of_nil hcase
      rcases hs : asyncSeedIssue srcs rest with ⟨srcs'', m, evs⟩
      obtain ⟨a, b, c, d⟩ := ih srcs hndrest
      rw [hs] at a b c d
      have hkeys : mapKeys m = rest := by
        have h := asyncSeedIssue_keys rest srcs
        rw [hs] at h
        exact h
      have hunfold : asyncSeedIssue srcs (i :: rest) =
          (srcs'', (i, none) :: m, Event.issue i :: evs) := by
        simp only [asyncSeedIssue, hp, hs]
      rw [hunfold]
      refine ⟨?_, ?_, ?_, d⟩
      · intro j hj
        exact a j fun hm => hj (List.mem_cons_of_mem _ hm)
      · intro i' r h
        rcases List.mem_cons.mp h with he | hm
        · rw [Prod.mk.injEq] at he
          obtain ⟨rfl, rfl⟩ := he
          exact Or.inl ⟨rfl, hcase, (a _ hinotrest).trans hcase⟩
        · exact b i' r hm
      · show (srcs.flatten : Multiset LogEntry) =
          (pendingVals ((i, none) :: m) : Multiset LogEntry) +
            (srcs''.flatten : Multiset LogEntry)
        have hpv : pendingVals ((i, none) :: m) = pendingVals m := rfl
        rw [hpv]
        exact c
    · obtain ⟨hp1, hp2, hp3, hp4, hp5⟩ := popSource_of_cons hcase
      rcases hp : popSource srcs i with ⟨r0, srcsMid⟩
      rw [hp] at hp1 hp2 hp3 hp4 hp5
      obtain rfl : r0 = some e := hp1
      rcases hs : asyncSeedIssue srcsMid rest with ⟨srcs'', m, evs⟩
      obtain ⟨a, b, c, d⟩ := ih srcsMid hndrest
      rw [hs] at a b c d
      have hkeys : mapKeys m = rest := by
        have h := asyncSeedIssue_keys rest srcsMid
        rw [hs] at h
        exact h
      have hunfold : asyncSeedIssue srcs (i :: rest) =
          (srcs'', (i, some e) :: m, Event.issue i :: evs) := by
        simp only [asyncSeedIssue, hp, hs]
      rw [hunfold]
      refine ⟨?_, ?_, ?_, by rw [d, hp5]⟩
      · intro j hj
        have hji : j ≠ i := fun hh => hj (hh ▸ List.mem_cons_self _ _)
        have hjr : j ∉ rest := fun hh => hj (List.mem_cons_of_mem _ hh)
        rw [a j hjr, hp3 j hji]
      · intro i' r h
        rcases List.mem_cons.mp h with he | hm
        · rw [Prod.mk.injEq] at he
          obtain ⟨rfl, rfl⟩ := he
          refine Or.inr ⟨e, rfl, ?_⟩
          rw [a i' hinotrest, hp2]
          exact hcase
        · have hi'rest : i' ∈ rest := by
            rw [← hkeys]
            exact mem_mapKeys.mpr ⟨r, hm⟩
          have hi'ne : i' ≠ i := fun hh => hinotrest (hh ▸ hi'rest)
          rcases b i' r hm with ⟨h1, h2, h3⟩ | ⟨e2, h1, h2⟩
          · exact Or.inl ⟨h1, by rw [← hp3 i' hi'ne]; exact h2, h3⟩
          · exact Or.inr ⟨e2, h1, by rw [← hp3 i' hi'ne]; exact h2⟩
      · show (srcs.flatten : Multiset LogEntry) =
          (pendingVals ((i, some e) :: m) : Multiset LogEntry) +
            (srcs''.flatten : Multiset LogEntry)
        have hpv : pendingVals ((i, some e) :: m) = e :: pendingVals m := rfl
        rw [hpv, hp4, c, ← Multiset.cons_coe, Multiset.cons_add]

theorem asyncSeedAwait_full :
    ∀ (entries : List (Nat × Option LogEntry)) (srcs : List (List LogEntry))
      (pmap : List (Nat × Option LogEntry)),
      (mapKeys pmap).Nodup →
      (entries.map Prod.fst).Nodup →
      (∀ pq ∈ entries, mapGet pmap pq.1 = some pq.2) →
      (∀ j, (getSource srcs j).Pairwise fun a b => a.date ≤ b.date) →
      (∀ pq ∈ entries,
        (pq.2 = none → getSource srcs pq.1 = []) ∧
        (∀ e, pq.2 = some e → ∀ z ∈ getSource srcs pq.1, e.date ≤ z.date)) →
      (∀ j, j ∉ activeKeys entries →
        getSource (asyncSeedAwait srcs entries pmap).1 j = getSource srcs j) ∧
      (∀ j, j ∉ entries.map Prod.fst →
        mapGet (asyncSeedAwait srcs entries pmap).2.1 j = mapGet pmap j) ∧
      (∀ re ∈ (asyncSeedAwait srcs entries pmap).2.2.1, ∃ e, re.logEntry = some e ∧
        ∃ r2, mapGet (asyncSeedAwait srcs entries pmap).2.1 re.logSourceIndex = some r2 ∧
          (r2 = none →
            getSource (asyncSeedAwait srcs entries pmap).1 re.logSourceIndex = []) ∧
          (∀ y, r2 = some y → e.date ≤ y.date ∧
            ∀ z ∈ getSource (asyncSeedAwait srcs entries pmap).1 re.logSourceIndex,
              y.date ≤ z.date)) ∧
      ((srcs.flatten : Multiset LogEntry) + (pendingVals pmap : Multiset LogEntry) =
        ((asyncSeedAwait srcs entries pmap).1.flatten : Multiset LogEntry) +
          (pendingVals (asyncSeedAwait srcs entries pmap).2.1 : Multiset LogEntry) +
          (queueVals (asyncSeedAwait srcs entries pmap).2.2.1 : Multiset LogEntry)) ∧
      (∀ j, (getSource (asyncSeedAwait srcs entries pmap).1 j).Pairwise
        fun a b => a.date ≤ b.date) ∧
      ((asyncSeedAwait srcs entries pmap).1.length = srcs.length) ∧
      ((asyncSeedAwait srcs entries pmap).2.2.1.map RankedEntry.logSourceIndex =
        activeKeys entries) := by
  intro entries
  induction entries with
  | nil =>
    intro srcs pmap _ _ _ hsort _
    refine ⟨fun j _ => rfl, fun j _ => rfl, fun re h => absurd h (List.not_mem_nil _),
      ?_, hsort, rfl, rfl⟩
    show (srcs.flatten : Multiset LogEntry) + (pendingVals pmap : Multiset LogEntry) =
      (srcs.flatten : Multiset LogEntry) + (pendingVals pmap : Multiset LogEntry) +
        (([] : List LogEntry) : Multiset LogEntry)
    simp
  | cons hd rest ih =>
    obtain ⟨i, r⟩ := hd
    intro srcs pmap hknd hend hsnap hsort hvals
    have hinotrest : i ∉ rest.map Prod.fst := (List.nodup_cons.mp hend).1
    have hndrest : (rest.map Prod.fst).Nodup := (List.nodup_cons.mp hend).2
    have hsnaphd : mapGet pmap i = some r := hsnap (i, r) (List.mem_cons_self _ _)
    have hikeys : i ∈ mapKeys pmap := mem_keys_of_mapGet hsnaphd
    cases r with
    | none =>
      have hsrci : getSource srcs i = [] :=
        (hvals (i, none) (List.mem_cons_self _ _)).1 rfl
      have hknd' : (mapKeys (mapDelete pmap i)).Nodup := nodup_keys_mapDelete hknd
      have hsnap' : ∀ pq ∈ rest, mapGet (mapDelete pmap i) pq.1 = some pq.2 := by
        intro pq hpq
        have hne : pq.1 ≠ i := fun hh =>
          hinotrest (hh ▸ List.mem_map_of_mem Prod.fst hpq)
        rw [mapGet_mapDelete_ne hne]
        exact hsnap pq (List.mem_cons_of_mem _ hpq)
      have hvals' : ∀ pq ∈ rest,
          (pq.2 = none → getSource srcs pq.1 = []) ∧
          (∀ e, pq.2 = some e → ∀ z ∈ getSource srcs pq.1, e.date ≤ z.date) :=
        fun pq hpq => hvals pq (List.mem_cons_of_mem _ hpq)
      obtain ⟨A, B, C, D, E, F, G⟩ := ih srcs (mapDelete pmap i) hknd' hndrest hsnap'
        hsort hvals'
      rcases ha : asyncSeedAwait srcs rest (mapDelete pmap i) with ⟨srcs2, pmap2, acc, evs⟩
      rw [ha] at A B C D E F G
      have B2 : ∀ j, j ∉ rest.map Prod.fst →
          mapGet pmap2 j = mapGet (mapDelete pmap i) j := B
      have D2 : (srcs.flatten : Multiset LogEntry) +
          (pendingVals (mapDelete pmap i) : Multiset LogEntry) =
          (srcs2.flatten : Multiset LogEntry) + (pendingVals pmap2 : Multiset LogEntry) +
            (queueVals acc : Multiset LogEntry) := D
      have hunfold : asyncSeedAwait srcs ((i, none) :: rest) pmap =
          (srcs2, pmap2, acc, Event.await i none :: evs) := by
        simp only [asyncSeedAwait, ha]
      rw [hunfold]
      refine ⟨A, ?_, C, ?_, E, F, G⟩
      · intro j hj
        have hji : j ≠ i := fun hh => hj (hh ▸ List.mem_cons_self _ _)
        have hjr : j ∉ rest.map Prod.fst := fun hh => hj (List.mem_cons_of_mem _ hh)
        show mapGet pmap2 j = mapGet pmap j
        rw [B2 j hjr, mapGet_mapDelete_ne hji]
      · show (srcs.flatten : Multiset LogEntry) + (pendingVals pmap : Multiset LogEntry) =
          (srcs2.flatten : Multiset LogEntry) + (pendingVals pmap2 : Multiset LogEntry) +
            (queueVals acc : Multiset LogEntry)
        rw [← pendingVals_mapDelete_none hsnaphd]
        exact D2
    | some e =>
      have hvalshd : ∀ z ∈ getSource srcs i, e.date ≤ z.date :=
        (hvals (i, some e) (List.mem_cons_self _ _)).2 e rfl
      have hactive : activeKeys ((i, some e) :: rest) = i :: activeKeys rest := rfl
      have hinotact : i ∉ activeKeys rest := fun hh =>
        hinotrest (activeKeys_subset_keys hh)
      rcases hcase : getSource srcs i with _ | ⟨y, t⟩
      · have hp : popSource srcs i = (none, srcs) := popSource_of_nil hcase
        have hkeyset : mapKeys (mapSet pmap i none) = mapKeys pmap :=
          mapKeys_mapSet_of_mem hikeys
        have hknd' : (mapKeys (mapSet pmap i none)).Nodup := hkeyset ▸ hknd
        have hsnap' : ∀ pq ∈ rest, mapGet (mapSet pmap i none) pq.1 = some pq.2 := by
          intro pq hpq
          have hne : pq.1 ≠ i := fun hh =>
            hinotrest (hh ▸ List.mem_map_of_mem Prod.fst hpq)
          rw [mapGet_mapSet_ne hne]
          exact hsnap pq (List.mem_cons_of_mem _ hpq)
        have hvals' : ∀ pq ∈ rest,
            (pq.2 = none → getSource srcs pq.1 = []) ∧
            (∀ e2, pq.2 = some e2 → ∀ z ∈ getSource srcs pq.1, e2.date ≤ z.date) :=
          fun pq hpq => hvals pq (List.mem_cons_of_mem _ hpq)
        obtain ⟨A, B, C, D, E, F, G⟩ := ih srcs (mapSet pmap i none) hknd' hndrest
          hsnap' hsort hvals'
        rcases ha : asyncSeedAwait srcs rest (mapSet pmap i none)
          with ⟨srcs2, pmap2, acc, evs⟩
        rw [ha] at A B C D E F G
        have A2 : ∀ j, j ∉ activeKeys rest → getSource srcs2 j = getSource srcs j := A
        have B2 : ∀ j, j ∉ rest.map Prod.fst →
            mapGet pmap2 j = mapGet (mapSet pmap i none) j := B
        have D2 : (srcs.flatten : Multiset LogEntry) +
            (pendingVals (mapSet pmap i none) : Multiset LogEntry) =
            (srcs2.flatten : Multiset LogEntry) + (pendingVals pmap2 : Multiset LogEntry) +
              (queueVals acc : Multiset LogEntry) := D
        have G2 : acc.map RankedEntry.logSourceIndex = activeKeys rest := G
        have hunfold : asyncSeedAwait srcs ((i, some e) :: rest) pmap =
            (srcs2, pmap2, ⟨some e, i⟩ :: acc,
              Event.await i (some e) :: Event.issue i :: evs) := by
          simp only [asyncSeedAwait, hp, ha]
        rw [hunfold]
        refine ⟨?_, ?_, ?_, ?_, E, F, ?_⟩
        · intro j hj
          rw [hactive] at hj
          have hjr : j ∉ activeKeys rest := fun hh => hj (List.mem_cons_of_mem _ hh)
          show getSource srcs2 j = getSource srcs j
          exact A2 j hjr
        · intro j hj
          have hji : j ≠ i := fun hh => hj (hh ▸ List.mem_cons_self _ _)
          have hjr : j ∉ rest.map Prod.fst := fun hh => hj (List.mem_cons_of_mem _ hh)
          show mapGet pmap2 j = mapGet pmap j
          rw [B2 j hjr, mapGet_mapSet_ne hji]
        · intro re hre
          rcases List.mem_cons.mp hre with rfl | hre
          · refine ⟨e, rfl, none, ?_, ?_, ?_⟩
            · show mapGet pmap2 i = some none
              rw [B2 i hinotrest, mapGet_mapSet_self]
            · intro _
              show getSource srcs2 i = []
              rw [A2 i hinotact]
              exact hcase
            · intro y hy
              exact nomatch hy
          · exact C re hre
        · show (srcs.flatten : Multiset LogEntry) + (pendingVals pmap : Multiset LogEntry) =
            (srcs2.flatten : Multiset LogEntry) + (pendingVals pmap2 : Multiset LogEntry) +
              (queueVals (⟨some e, i⟩ :: acc) : Multiset LogEntry)
          have hqv : (queueVals (⟨some e, i⟩ :: acc) : Multiset LogEntry) =
              {e} + (queueVals acc : Multiset LogEntry) := by
            show ((e :: queueVals acc : List LogEntry) : Multiset LogEntry) = _
            rw [← Multiset.cons_coe, Multiset.singleton_add]
          have hpv : ({e} : Multiset LogEntry) +
              (pendingVals (mapSet pmap i none) : Multiset LogEntry) =
              (pendingVals pmap : Multiset LogEntry) := by
            rw [Multiset.singleton_add]
            exact pendingVals_mapSet_drained hsnaphd
          rw [hqv]
          have hre : (srcs2.flatten : Multiset LogEntry) +
              (pendingVals pmap2 : Multiset LogEntry) +
              ({e} + (queueVals acc : Multiset LogEntry)) =
              {e} + ((srcs2.flatten : Multiset LogEntry) +
                (pendingVals pmap2 : Multiset LogEntry) +
                (queueVals acc : Multiset LogEntry)) := by
            abel
          rw [hre, ← D2]
          have hre2 : ({e} : Multiset LogEntry) + ((srcs.flatten : Multiset LogEntry) +
              (pendingVals (mapSet pmap i none) : Multiset LogEntry)) =
              (srcs.flatten : Multiset LogEntry) +
                ({e} + (pendingVals (mapSet pmap i none) : Multiset LogEntry)) := by
            abel
          rw [hre2, hpv]
        · show (⟨some e, i⟩ :: acc).map RankedEntry.logSourceIndex =
            activeKeys ((i, some e) :: rest)
          rw [hactive]
          show i :: acc.map RankedEntry.logSourceIndex = i :: activeKeys rest
          rw [G2]
      · obtain ⟨hp1, hp2, hp3, hp4, hp5⟩ := popSource_of_cons hcase
        rcases hp : popSource srcs i with ⟨r0, srcsMid⟩
        rw [hp] at hp1 hp2 hp3 hp4 hp5
        obtain rfl : r0 = some y := hp1
        have hp2' : getSource srcsMid i = t := hp2
        have hp3' : ∀ j, j ≠ i → getSource srcsMid j = getSource srcs j := hp3
        have hp4' : (srcs.flatten : Multiset LogEntry) =
            y ::ₘ (srcsMid.flatten : Multiset LogEntry) := hp4
        have hp5' : srcsMid.length = srcs.length := hp5
        have hkeyset : mapKeys (mapSet pmap i (some y)) = mapKeys pmap :=
          mapKeys_mapSet_of_mem hikeys
        have hknd' : (mapKeys (mapSet pmap i (some y))).Nodup := hkeyset ▸ hknd
        have hsnap' : ∀ pq ∈ rest, mapGet (mapSet pmap i (some y)) pq.1 = some pq.2 := by
          intro pq hpq
          have hne : pq.1 ≠ i := fun hh =>
            hinotrest (hh ▸ List.mem_map_of_mem Prod.fst hpq)
          rw [mapGet_mapSet_ne hne]
          exact hsnap pq (List.mem_cons_of_mem _ hpq)
        have hsortmid : ∀ j, (getSource srcsMid j).Pairwise
            fun a b => a.date ≤ b.date := by
          intro j
          by_cases hji : j = i
          · subst hji
            rw [hp2']
            have hpw := hsort j
            rw [hcase] at hpw
            exact (List.pairwise_cons.mp hpw).2
          · rw [hp3' j hji]
            exact hsort j
        have hvals' : ∀ pq ∈ rest,
            (pq.2 = none → getSource srcsMid pq.1 = []) ∧
            (∀ e2, pq.2 = some e2 → ∀ z ∈ getSource srcsMid pq.1, e2.date ≤ z.date) := by
          intro pq hpq
          have hne : pq.1 ≠ i := fun hh =>
            hinotrest (hh ▸ List.mem_map_of_mem Prod.fst hpq)
          rw [hp3' pq.1 hne]
          exact hvals pq (List.mem_cons_of_mem _ hpq)
        obtain ⟨A, B, C, D, E, F, G⟩ := ih srcsMid (mapSet pmap i (some y)) hknd' hndrest
          hsnap' hsortmid hvals'
        rcases ha : asyncSeedAwait srcsMid rest (mapSet pmap i (some y))
          with ⟨srcs2, pmap2, acc, evs⟩
        rw [ha] at A B C D E F G
        have A2 : ∀ j, j ∉ activeKeys rest → getSource srcs2 j = getSource srcsMid j := A
        have B2 : ∀ j, j ∉ rest.map Prod.fst →
            mapGet pmap2 j = mapGet (mapSet pmap i (some y)) j := B
        have D2 : (srcsMid.flatten : Multiset LogEntry) +
            (pendingVals (mapSet pmap i (some y)) : Multiset LogEntry) =
            (srcs2.flatten : Multiset LogEntry) + (pendingVals pmap2 : Multiset LogEntry) +
              (queueVals acc : Multiset LogEntry) := D
        have F2 : srcs2.length = srcsMid.length := F
        have G2 : acc.map RankedEntry.logSourceIndex = activeKeys rest := G
        have hunfold : asyncSeedAwait srcs ((i, some e) :: rest) pmap =
            (srcs2, pmap2, ⟨some e, i⟩ :: acc,
              Event.await i (some e) :: Event.issue i :: evs) := by
          simp only [asyncSeedAwait, hp, ha]
        rw [hunfold]
        refine ⟨?_, ?_, ?_, ?_, E, ?_, ?_⟩
        · intro j hj
          rw [hactive] at hj
          have hji : j ≠ i := fun hh => hj (hh ▸ List.mem_cons_self _ _)
          have hjr : j ∉ activeKeys rest := fun hh => hj (List.mem_cons_of_mem _ hh)
          show getSource srcs2 j = getSource srcs j
          rw [A2 j hjr, hp3' j hji]
        · intro j hj
          have hji : j ≠ i := fun hh => hj (hh ▸ List.mem_cons_self _ _)
          have hjr : j ∉ rest.map Prod.fst := fun hh => hj (List.mem_cons_of_mem _ hh)
          show mapGet pmap2 j = mapGet pmap j
          rw [B2 j hjr, mapGet_mapSet_ne hji]
        · intro re hre
          rcases List.mem_cons.mp hre with rfl | hre
          · refine ⟨e, rfl, some y, ?_, ?_, ?_⟩
            · show mapGet pmap2 i = some (some y)
              rw [B2 i hinotrest, mapGet_mapSet_self]
            · intro hy
              exact nomatch hy
            · intro y2 hy2
              obtain rfl := Option.some.inj hy2
              refine ⟨hvalshd y (by rw [hcase]; exact List.mem_cons_self _ _), ?_⟩
              intro z hz
              have hz2 : z ∈ getSource srcs2 i := hz
              rw [A2 i hinotact, hp2'] at hz2
              have hpw := hsort i
              rw [hcase] at hpw
              exact (List.pairwise_cons.mp hpw).1 z hz2
          · exact C re hre
        · show (srcs.flatten : Multiset LogEntry) + (pendingVals pmap : Multiset LogEntry) =
            (srcs2.flatten : Multiset LogEntry) + (pendingVals pmap2 : Multiset LogEntry) +
              (queueVals (⟨some e, i⟩ :: acc) : Multiset LogEntry)
          have hqv : (queueVals (⟨some e, i⟩ :: acc) : Multiset LogEntry) =
              {e} + (queueVals acc : Multiset LogEntry) := by
            show ((e :: queueVals acc : List LogEntry) : Multiset LogEntry) = _
            rw [← Multiset.cons_coe, Multiset.singleton_add]
          have hpv : ({e} : Multiset LogEntry) +
              (pendingVals (mapSet pmap i (some y)) : Multiset LogEntry) =
              {y} + (pendingVals pmap : Multiset LogEntry) := by
            rw [Multiset.singleton_add, Multiset.singleton_add]
            exact pendingVals_mapSet_entry hsnaphd
          have hfl : (srcs.flatten : Multiset LogEntry) =
              {y} + (srcsMid.flatten : Multiset LogEntry) := by
            rw [Multiset.singleton_add]
            exact hp4'
          rw [hqv, hfl]
          have hre : (srcs2.flatten : Multiset LogEntry) +
              (pendingVals pmap2 : Multiset LogEntry) +
              ({e} + (queueVals acc : Multiset LogEntry)) =
              {e} + ((srcs2.flatten : Multiset LogEntry) +
                (pendingVals pmap2 : Multiset LogEntry) +
                (queueVals acc : Multiset LogEntry)) := by
            abel
          rw [hre, ← D2]
          have hre2 : ({e} : Multiset LogEntry) + ((srcsMid.flatten : Multiset LogEntry) +
              (pendingVals (mapSet pmap i (some y)) : Multiset LogEntry)) =
              (srcsMid.flatten : Multiset LogEntry) +
                ({e} + (pendingVals (mapSet pmap i (some y)) : Multiset LogEntry)) := by
            abel
          rw [hre2, hpv]
          abel
        · show srcs2.length = srcs.length
          rw [F2, hp5']
        · show (⟨some e, i⟩ :: acc).map RankedEntry.logSourceIndex =
            activeKeys ((i, some e) :: rest)
          rw [hactive]
          show i :: acc.map RankedEntry.logSourceIndex = i :: activeKeys rest
          rw [G2]

theorem asyncLoop_correct :
    ∀ (fuel : Nat) (b : Option Int) (srcs : List (List LogEntry))
      (pmap : List (Nat × Option LogEntry)) (queue : List RankedEntry),
      LoopInv b srcs pmap queue →
      loopMeasure srcs pmap queue < fuel →
      ∃ evs m, asyncLoop fuel srcs pmap queue = (evs, some m) ∧
        (printedEntries evs : Multiset LogEntry) = remainingMS srcs pmap queue ∧
        (printedDates evs).Chain' (· ≤ ·) ∧
        (∀ d ∈ printedDates evs, LBound b d) ∧
        (∀ v ∈ printedValues evs, v.isSome = true) ∧
        ∃ p, evs = p ++ [Event.done] ∧ Event.done ∉ p := by
  intro fuel
  induction fuel with
  | zero =>
    intro b srcs pmap queue _ hm
    exact absurd hm (Nat.not_lt_zero _)
  | succ n ih =>
    intro b srcs pmap queue hinv hm
    cases hpm : popMin queue with
    | none =>
      have hqnil : queue = [] := popMin_eq_none.mp hpm
      subst hqnil
      have hkeysnil : mapKeys pmap = [] := by
        apply List.eq_nil_iff_forall_not_mem.mpr
        intro j hj
        simpa using (hinv.keysIff j).mp hj
      have hpmapnil : pmap = [] := by
        cases pmap with
        | nil => rfl
        | cons q rest => simp [mapKeys] at hkeysnil
      have hflat : srcs.flatten = [] :=
        flatten_eq_nil_of_sources_nil fun i =>
          hinv.inactive i (by rw [hkeysnil]; exact List.not_mem_nil _)
      refine ⟨[Event.done], pmap, ?_, ?_, ?_, ?_, ?_, [], rfl, by simp⟩
      · simp only [asyncLoop, hpm]
      · show (printedEntries [Event.done] : Multiset LogEntry) = remainingMS srcs pmap []
        rw [remainingMS, hpmapnil, hflat]
        show (([] : List LogEntry) : Multiset LogEntry) =
          (([] : List LogEntry) : Multiset LogEntry) +
            (([] : List LogEntry) : Multiset LogEntry) +
            (([] : List LogEntry) : Multiset LogEntry)
        simp
      · show ([] : List Int).Chain' (· ≤ ·)
        simp
      · intro d hd
        exact absurd hd (List.not_mem_nil _)
      · intro v hv
        exact absurd hv (List.not_mem_nil _)
    | some pq =>
      obtain ⟨re, queue'⟩ := pq
      obtain ⟨x, hrex⟩ := Option.isSome_iff_exists.mp
        (hinv.queueSome re (popMin_mem hpm))
      have hiq : re.logSourceIndex ∈ queue.map RankedEntry.logSourceIndex :=
        List.mem_map_of_mem _ (popMin_mem hpm)
      have hikeys : re.logSourceIndex ∈ mapKeys pmap := (hinv.keysIff _).mpr hiq
      obtain ⟨r, hget⟩ := mapGet_isSome_of_mem_keys hikeys
      have hpermidx : (queue.map RankedEntry.logSourceIndex).Perm
          (re.logSourceIndex :: queue'.map RankedEntry.logSourceIndex) := by
        have h := (popMin_perm hpm).map RankedEntry.logSourceIndex
        simpa using h
      have hqnd' : (queue'.map RankedEntry.logSourceIndex).Nodup :=
        (List.nodup_cons.mp (hpermidx.nodup_iff.mp hinv.queueNodup)).2
      have hinotq' : re.logSourceIndex ∉ queue'.map RankedEntry.logSourceIndex :=
        (List.nodup_cons.mp (hpermidx.nodup_iff.mp hinv.queueNodup)).1
      have hqsub := popMin_rest_subset hpm
      have hminx : ∀ z ∈ queue', ∀ bz, z.logEntry = some bz → x.date ≤ bz.date :=
        fun z hz bz hbz => popMin_min hinv.queueSome hpm z hz x bz hrex hbz
      have hLB : LBound b x.date := hinv.queueBound re (popMin_mem hpm) x hrex
      have hqlen : queue.length = queue'.length + 1 := by
        simpa using (popMin_perm hpm).length_eq
      have hqvq : (queueVals queue : Multiset LogEntry) =
          x ::ₘ (queueVals queue' : Multiset LogEntry) := by
        have hperm := (popMin_perm hpm).filterMap RankedEntry.logEntry
        have hcons : queueVals (re :: queue') = x :: queueVals queue' := by
          simp [queueVals, List.filterMap_cons, hrex]
        have h2 : (queueVals queue : Multiset LogEntry) =
            ((queueVals (re :: queue') : List LogEntry) : Multiset LogEntry) :=
          Multiset.coe_eq_coe.mpr hperm
        rw [h2, hcons, ← Multiset.cons_coe]
      cases r with
      | none =>
        have hsrc : getSource srcs re.logSourceIndex = [] := hinv.pmapDrained _ hget
        have hinv' : LoopInv (some x.date) srcs (mapDelete pmap re.logSourceIndex)
            queue' := by
          refine ⟨nodup_keys_mapDelete hinv.keysNodup, hqnd',
            fun z hz => hinv.queueSome z (hqsub z hz), ?_, hinv.srcsSorted,
            ?_, ?_, ?_, ?_, ?_⟩
          · intro j
            rw [mem_keys_mapDelete hinv.keysNodup]
            constructor
            · rintro ⟨hj1, hj2⟩
              have := hpermidx.subset ((hinv.keysIff j).mp hj1)
              rcases List.mem_cons.mp this with h1 | h1
              · exact absurd h1 hj2
              · exact h1
            · intro hj
              refine ⟨(hinv.keysIff j).mpr
                (hpermidx.symm.subset (List.mem_cons_of_mem _ hj)), ?_⟩
              intro hji
              exact hinotq' (hji ▸ hj)
          · intro j hj
            by_cases hji : j = re.logSourceIndex
            · subst hji
              exact hsrc
            · rw [mapGet_mapDelete_ne hji] at hj
              exact hinv.pmapDrained j hj
          · intro j e2 hj
            by_cases hji : j = re.logSourceIndex
            · subst hji
              have hmem := mem_keys_of_mapGet hj
              rw [mem_keys_mapDelete hinv.keysNodup] at hmem
              exact absurd rfl hmem.2
            · rw [mapGet_mapDelete_ne hji] at hj
              exact hinv.pmapEntry j e2 hj
          · intro j hj
            by_cases hji : j = re.logSourceIndex
            · subst hji
              exact hsrc
            · refine hinv.inactive j ?_
              intro hmem
              exact hj ((mem_keys_mapDelete hinv.keysNodup).mpr ⟨hmem, hji⟩)
          · intro z hz bz hbz c hc
            obtain rfl := Option.some.inj hc
            exact hminx z hz bz hbz
          · intro z hz bz e2 hbz hzget
            have hzne : z.logSourceIndex ≠ re.logSourceIndex := by
              intro hh
              exact hinotq' (hh ▸ List.mem_map_of_mem RankedEntry.logSourceIndex hz)
            rw [mapGet_mapDelete_ne hzne] at hzget
            exact hinv.chainCond z (hqsub z hz) bz e2 hbz hzget
        have hpvdel : pendingVals (mapDelete pmap re.logSourceIndex) = pendingVals pmap :=
          pendingVals_mapDelete_none hget
        have hmeas' : loopMeasure srcs (mapDelete pmap re.logSourceIndex) queue' < n := by
          rw [loopMeasure] at hm ⊢
          rw [hpvdel]
          omega
        obtain ⟨evs', m, heq', hms, hch, hbd, hsm, p', hpp, hdn⟩ :=
          ih (some x.date) srcs (mapDelete pmap re.logSourceIndex) queue' hinv' hmeas'
        refine ⟨Event.print re.logEntry :: Event.await re.logSourceIndex none :: evs', m,
          ?_, ?_, ?_, ?_, ?_, Event.print re.logEntry ::
            Event.await re.logSourceIndex none :: p', ?_, ?_⟩
        · simp only [asyncLoop, hpm, hget, heq']
        · have hpe : printedEntries (Event.print re.logEntry ::
              Event.await re.logSourceIndex none :: evs') = x :: printedEntries evs' := by
            simp [printedEntries, List.filterMap_cons, hrex]
          rw [hpe, ← Multiset.cons_coe, hms]
          rw [remainingMS, remainingMS, hpvdel, hqvq]
          rw [← Multiset.singleton_add, ← Multiset.singleton_add]
          abel
        · have hpd : printedDates (Event.print re.logEntry ::
              Event.await re.logSourceIndex none :: evs') = x.date :: printedDates evs' := by
            simp [printedDates, printedEntries, List.filterMap_cons, hrex]
          rw [hpd]
          rw [List.chain'_cons']
          refine ⟨?_, hch⟩
          intro y hy
          have hymem : y ∈ printedDates evs' := List.mem_of_mem_head? hy
          exact hbd y hymem x.date rfl
        · intro d hd
          have hpd : printedDates (Event.print re.logEntry ::
              Event.await re.logSourceIndex none :: evs') = x.date :: printedDates evs' := by
            simp [printedDates, printedEntries, List.filterMap_cons, hrex]
          rw [hpd] at hd
          rcases List.mem_cons.mp hd with rfl | hd
          · exact hLB
          · intro c hc
            exact le_trans (hLB c hc) (hbd d hd x.date rfl)
        · intro v hv
          have hpv : printedValues (Event.print re.logEntry ::
              Event.await re.logSourceIndex none :: evs') =
              re.logEntry :: printedValues evs' := by
            simp [printedValues, List.filterMap_cons]
          rw [hpv] at hv
          rcases List.mem_cons.mp hv with rfl | hv
          · rw [hrex]; rfl
          · exact hsm v hv
        · rw [hpp]
          rfl
        · intro hmem
          rcases List.mem_cons.mp hmem with h1 | h1
          · exact nomatch h1
          · rcases List.mem_cons.mp h1 with h2 | h2
            · exact nomatch h2
            · exact hdn h2
      | some e' =>
        have hchainx : x.date ≤ e'.date :=
          hinv.chainCond re (popMin_mem hpm) x e' hrex hget
        have hpentry := hinv.pmapEntry re.logSourceIndex e' hget
        rcases hp : popSource srcs re.logSourceIndex with ⟨r2, srcs'⟩
        have hkeyset : mapKeys (mapSet pmap re.logSourceIndex r2) = mapKeys pmap :=
          mapKeys_mapSet_of_mem hikeys
        have hqidx2 : (queue' ++ [(⟨some e', re.logSourceIndex⟩ : RankedEntry)]).map
            RankedEntry.logSourceIndex =
            queue'.map RankedEntry.logSourceIndex ++ [re.logSourceIndex] := by
          simp
        have hqnd2 : ((queue' ++ [(⟨some e', re.logSourceIndex⟩ : RankedEntry)]).map
            RankedEntry.logSourceIndex).Nodup := by
          rw [hqidx2]
          exact (List.perm_append_singleton _ _).nodup_iff.mpr
            (List.nodup_cons.mpr ⟨hinotq', hqnd'⟩)
        have hqsome2 : ∀ z ∈ queue' ++ [(⟨some e', re.logSourceIndex⟩ : RankedEntry)],
            z.logEntry.isSome = true := by
          intro z hz
          rcases List.mem_append.mp hz with hz | hz
          · exact hinv.queueSome z (hqsub z hz)
          · simp at hz
            rw [hz]
            rfl
        have hkeysiff2 : ∀ j, j ∈ mapKeys (mapSet pmap re.logSourceIndex r2) ↔
            j ∈ (queue' ++ [(⟨some e', re.logSourceIndex⟩ : RankedEntry)]).map
              RankedEntry.logSourceIndex := by
          intro j
          rw [hkeyset, hqidx2, List.mem_append]
          constructor
          · intro hj
            have := hpermidx.subset ((hinv.keysIff j).mp hj)
            rcases List.mem_cons.mp this with h1 | h1
            · exact Or.inr (by simp [h1])
            · exact Or.inl h1
          · rintro (hj | hj)
            · exact (hinv.keysIff j).mpr
                (hpermidx.symm.subset (List.mem_cons_of_mem _ hj))
            · simp at hj
              rw [hj]
              exact hikeys
        have hqbound2 : ∀ z ∈ queue' ++ [(⟨some e', re.logSourceIndex⟩ : RankedEntry)],
            ∀ bz, z.logEntry = some bz → LBound (some x.date) bz.date := by
          intro z hz bz hbz c hc
          obtain rfl := Option.some.inj hc
          rcases List.mem_append.mp hz with hz | hz
          · exact hminx z hz bz hbz
          · simp at hz
            rw [hz] at hbz
            obtain rfl := Option.some.inj hbz
            exact hchainx
        rcases hcase : getSource srcs re.logSourceIndex with _ | ⟨y, t⟩
        · -- the re-issued fetch finds source i drained
          have hpnil : popSource srcs re.logSourceIndex = (none, srcs) :=
            popSource_of_nil hcase
          rw [hp] at hpnil
          rw [Prod.mk.injEq] at hpnil
          obtain ⟨rfl, rfl⟩ := hpnil
          have hinv' : LoopInv (some x.date) srcs'
              (mapSet pmap re.logSourceIndex none)
              (queue' ++ [⟨some e', re.logSourceIndex⟩]) := by
            refine ⟨hkeyset ▸ hinv.keysNodup, hqnd2, hqsome2, hkeysiff2,
              hinv.srcsSorted, ?_, ?_, ?_, hqbound2, ?_⟩
            · intro j hj
              by_cases hji : j = re.logSourceIndex
              · subst hji
                exact hcase
              · rw [mapGet_mapSet_ne hji] at hj
                exact hinv.pmapDrained j hj
            · intro j e2 hj
              by_cases hji : j = re.logSourceIndex
              · subst hji
                rw [mapGet_mapSet_self] at hj
                exact nomatch Option.some.inj hj
              · rw [mapGet_mapSet_ne hji] at hj
                exact hinv.pmapEntry j e2 hj
            · intro j hj
              rw [hkeyset] at hj
              by_cases hji : j = re.logSourceIndex
              · subst hji
                exact hcase
              · exact hinv.inactive j hj
            · intro z hz bz e2 hbz hzget
              rcases List.mem_append.mp hz with hz | hz
              · have hzne : z.logSourceIndex ≠ re.logSourceIndex := by
                  intro hh
                  exact hinotq' (hh ▸ List.mem_map_of_mem RankedEntry.logSourceIndex hz)
                rw [mapGet_mapSet_ne hzne] at hzget
                exact hinv.chainCond z (hqsub z hz) bz e2 hbz hzget
              · simp at hz
                rw [hz] at hzget
                rw [show (⟨some e', re.logSourceIndex⟩ :
                    RankedEntry).logSourceIndex = re.logSourceIndex from rfl,
                  mapGet_mapSet_self] at hzget
                exact nomatch Option.some.inj hzget
          have hpvlen : (pendingVals (mapSet pmap re.logSourceIndex none)).length + 1 =
              (pendingVals pmap).length := by
            have h := congrArg Multiset.card (pendingVals_mapSet_drained hget)
            simpa using h
          have hmeas' : loopMeasure srcs'
              (mapSet pmap re.logSourceIndex none)
              (queue' ++ [⟨some e', re.logSourceIndex⟩]) < n := by
            rw [loopMeasure] at hm ⊢
            rw [List.length_append]
            simp only [List.length_cons, List.length_nil]
            omega
          obtain ⟨evs', m, heq', hms, hch, hbd, hsm, p', hpp, hdn⟩ :=
            ih (some x.date) srcs' (mapSet pmap re.logSourceIndex none)
              (queue' ++ [⟨some e', re.logSourceIndex⟩]) hinv' hmeas'
          refine ⟨Event.print re.logEntry :: Event.await re.logSourceIndex (some e') ::
            Event.issue re.logSourceIndex :: evs', m, ?_, ?_, ?_, ?_, ?_,
            Event.print re.logEntry :: Event.await re.logSourceIndex (some e') ::
              Event.issue re.logSourceIndex :: p', ?_, ?_⟩
          · simp only [asyncLoop, hpm, hget, hp, heq']
          · have hpe : printedEntries (Event.print re.logEntry ::
                Event.await re.logSourceIndex (some e') ::
                Event.issue re.logSourceIndex :: evs') = x :: printedEntries evs' := by
              simp [printedEntries, List.filterMap_cons, hrex]
            rw [hpe, ← Multiset.cons_coe, hms]
            rw [remainingMS, remainingMS, hqvq]
            have hqv2 : (queueVals (queue' ++ [(⟨some e', re.logSourceIndex⟩ :
                RankedEntry)]) : Multiset LogEntry) =
                (queueVals queue' : Multiset LogEntry) + {e'} := by
              have hq1 : queueVals (queue' ++ [(⟨some e', re.logSourceIndex⟩ :
                  RankedEntry)]) = queueVals queue' ++ [e'] := by
                rw [queueVals_append]
                rfl
              rw [hq1, ← Multiset.coe_singleton e', Multiset.coe_add]
            rw [hqv2]
            have hpv2 : ({e'} : Multiset LogEntry) +
                (pendingVals (mapSet pmap re.logSourceIndex none) : Multiset LogEntry) =
                (pendingVals pmap : Multiset LogEntry) := by
              rw [Multiset.singleton_add]
              exact pendingVals_mapSet_drained hget
            rw [← hpv2]
            rw [← Multiset.singleton_add, ← Multiset.singleton_add]
            abel
          · have hpd : printedDates (Event.print re.logEntry ::
                Event.await re.logSourceIndex (some e') ::
                Event.issue re.logSourceIndex :: evs') = x.date :: printedDates evs' := by
              simp [printedDates, printedEntries, List.filterMap_cons, hrex]
            rw [hpd, List.chain'_cons']
            refine ⟨?_, hch⟩
            intro y2 hy2
            exact hbd y2 (List.mem_of_mem_head? hy2) x.date rfl
          · intro d hd
            have hpd : printedDates (Event.print re.logEntry ::
                Event.await re.logSourceIndex (some e') ::
                Event.issue re.logSourceIndex :: evs') = x.date :: printedDates evs' := by
              simp [printedDates, printedEntries, List.filterMap_cons, hrex]
            rw [hpd] at hd
            rcases List.mem_cons.mp hd with rfl | hd
            · exact hLB
            · intro c hc
              exact le_trans (hLB c hc) (hbd d hd x.date rfl)
          · intro v hv
            have hpv : printedValues (Event.print re.logEntry ::
                Event.await re.logSourceIndex (some e') ::
                Event.issue re.logSourceIndex :: evs') =
                re.logEntry :: printedValues evs' := by
              simp [printedValues, List.filterMap_cons]
            rw [hpv] at hv
            rcases List.mem_cons.mp hv with rfl | hv
            · rw [hrex]; rfl
            · exact hsm v hv
          · rw [hpp]
            rfl
          · intro hmem
            rcases List.mem_cons.mp hmem with h1 | h1
            · exact nomatch h1
            · rcases List.mem_cons.mp h1 with h2 | h2
              · exact nomatch h2
              · rcases List.mem_cons.mp h2 with h3 | h3
                · exact nomatch h3
                · exact hdn h3
        · -- the re-issued fetch holds the source head y
          obtain ⟨hp1, hp2, hp3, hp4, hp5⟩ := popSource_of_cons hcase
          rw [hp] at hp1 hp2 hp3 hp4 hp5
          obtain rfl : r2 = some y := hp1
          have hp2' : getSource srcs' re.logSourceIndex = t := hp2
          have hp3' : ∀ j, j ≠ re.logSourceIndex →
              getSource srcs' j = getSource srcs j := hp3
          have hp4' : (srcs.flatten : Multiset LogEntry) =
              y ::ₘ (srcs'.flatten : Multiset LogEntry) := hp4
          have hp5' : srcs'.length = srcs.length := hp5
          have hflatlen : srcs.flatten.length = srcs'.flatten.length + 1 := by
            have h := congrArg Multiset.card hp4'
            simpa using h
          have hinv' : LoopInv (some x.date) srcs'
              (mapSet pmap re.logSourceIndex (some y))
              (queue' ++ [⟨some e', re.logSourceIndex⟩]) := by
            refine ⟨hkeyset ▸ hinv.keysNodup, hqnd2, hqsome2, hkeysiff2, ?_, ?_, ?_, ?_,
              hqbound2, ?_⟩
            · intro j
              by_cases hji : j = re.logSourceIndex
              · subst hji
                rw [hp2']
                have hpw := hinv.srcsSorted re.logSourceIndex
                rw [hcase] at hpw
                exact (List.pairwise_cons.mp hpw).2
              · rw [hp3' j hji]
                exact hinv.srcsSorted j
            · intro j hj
              by_cases hji : j = re.logSourceIndex
              · subst hji
                rw [mapGet_mapSet_self] at hj
                exact nomatch Option.some.inj hj
              · rw [mapGet_mapSet_ne hji] at hj
                rw [hp3' j hji]
                exact hinv.pmapDrained j hj
            · intro j e2 hj
              by_cases hji : j = re.logSourceIndex
              · subst hji
                rw [mapGet_mapSet_self] at hj
                obtain rfl := Option.some.inj (Option.some.inj hj)
                rw [hp2']
                have hpw := hinv.srcsSorted re.logSourceIndex
                rw [hcase] at hpw
                exact (List.pairwise_cons.mp hpw).1
              · rw [mapGet_mapSet_ne hji] at hj
                rw [hp3' j hji]
                exact hinv.pmapEntry j e2 hj
            · intro j hj
              rw [hkeyset] at hj
              by_cases hji : j = re.logSourceIndex
              · subst hji
                exact absurd hikeys hj
              · rw [hp3' j hji]
                exact hinv.inactive j hj
            · intro z hz bz e2 hbz hzget
              rcases List.mem_append.mp hz with hz | hz
              · have hzne : z.logSourceIndex ≠ re.logSourceIndex := by
                  intro hh
                  exact hinotq' (hh ▸ List.mem_map_of_mem RankedEntry.logSourceIndex hz)
                rw [mapGet_mapSet_ne hzne] at hzget
                exact hinv.chainCond z (hqsub z hz) bz e2 hbz hzget
              · simp at hz
                rw [hz] at hzget hbz
                rw [show (⟨some e', re.logSourceIndex⟩ :
                    RankedEntry).logSourceIndex = re.logSourceIndex from rfl,
                  mapGet_mapSet_self] at hzget
                obtain rfl := Option.some.inj (Option.some.inj hzget)
                obtain rfl := Option.some.inj hbz
                exact hpentry y (by rw [hcase]; exact List.mem_cons_self _ _)
          have hpvlen : (pendingVals (mapSet pmap re.logSourceIndex (some y))).length =
              (pendingVals pmap).length := by
            have h : e' ::ₘ (pendingVals (mapSet pmap re.logSourceIndex (some y)) :
                Multiset LogEntry) = y ::ₘ (pendingVals pmap : Multiset LogEntry) :=
              pendingVals_mapSet_entry hget
            have h2 := congrArg Multiset.card h
            simpa using h2
          have hmeas' : loopMeasure srcs'
              (mapSet pmap re.logSourceIndex (some y))
              (queue' ++ [⟨some e', re.logSourceIndex⟩]) < n := by
            rw [loopMeasure] at hm ⊢
            rw [List.length_append]
            simp only [List.length_cons, List.length_nil]
            omega
          obtain ⟨evs', m, heq', hms, hch, hbd, hsm, p', hpp, hdn⟩ :=
            ih (some x.date) srcs' (mapSet pmap re.logSourceIndex (some y))
              (queue' ++ [⟨some e', re.logSourceIndex⟩]) hinv' hmeas'
          refine ⟨Event.print re.logEntry :: Event.await re.logSourceIndex (some e') ::
            Event.issue re.logSourceIndex :: evs', m, ?_, ?_, ?_, ?_, ?_,
            Event.print re.logEntry :: Event.await re.logSourceIndex (some e') ::
              Event.issue re.logSourceIndex :: p', ?_, ?_⟩
          · simp only [asyncLoop, hpm, hget, hp, heq']
          · have hpe : printedEntries (Event.print re.logEntry ::
                Event.await re.logSourceIndex (some e') ::
                Event.issue re.logSourceIndex :: evs') = x :: printedEntries evs' := by
              simp [printedEntries, List.filterMap_cons, hrex]
            rw [hpe, ← Multiset.cons_coe, hms]
            rw [remainingMS, remainingMS, hqvq, hp4']
            have hqv2 : (queueVals (queue' ++ [(⟨some e', re.logSourceIndex⟩ :
                RankedEntry)]) : Multiset LogEntry) =
                (queueVals queue' : Multiset LogEntry) + {e'} := by
              have hq1 : queueVals (queue' ++ [(⟨some e', re.logSourceIndex⟩ :
                  RankedEntry)]) = queueVals queue' ++ [e'] := by
                rw [queueVals_append]
                rfl
              rw [hq1, ← Multiset.coe_singleton e', Multiset.coe_add]
            rw [hqv2]
            have hpv2 : ({e'} : Multiset LogEntry) +
                (pendingVals (mapSet pmap re.logSourceIndex (some y)) : Multiset LogEntry) =
                {y} + (pendingVals pmap : Multiset LogEntry) := by
              rw [Multiset.singleton_add, Multiset.singleton_add]
              exact pendingVals_mapSet_entry hget
            have hgoal : (srcs'.flatten : Multiset LogEntry) +
                (pendingVals (mapSet pmap re.logSourceIndex (some y)) : Multiset LogEntry) +
                ((queueVals queue' : Multiset LogEntry) + {e'}) =
                (srcs'.flatten : Multiset LogEntry) +
                  (({e'} : Multiset LogEntry) +
                    (pendingVals (mapSet pmap re.logSourceIndex (some y)) :
                      Multiset LogEntry)) + (queueVals queue' : Multiset LogEntry) := by
              abel
            rw [← Multiset.singleton_add, ← Multiset.singleton_add, hgoal, hpv2]
            rw [← Multiset.singleton_add]
            abel
          · have hpd : printedDates (Event.print re.logEntry ::
                Event.await re.logSourceIndex (some e') ::
                Event.issue re.logSourceIndex :: evs') = x.date :: printedDates evs' := by
              simp [printedDates, printedEntries, List.filterMap_cons, hrex]
            rw [hpd, List.chain'_cons']
            refine ⟨?_, hch⟩
            intro y2 hy2
            exact hbd y2 (List.mem_of_mem_head? hy2) x.date rfl
          · intro d hd
            have hpd : printedDates (Event.print re.logEntry ::
                Event.await re.logSourceIndex (some e') ::
                Event.issue re.logSourceIndex :: evs') = x.date :: printedDates evs' := by
              simp [printedDates, printedEntries, List.filterMap_cons, hrex]
            rw [hpd] at hd
            rcases List.mem_cons.mp hd with rfl | hd
            · exact hLB
            · intro c hc
              exact le_trans (hLB c hc) (hbd d hd x.date rfl)
          · intro v hv
            have hpv : printedValues (Event.print re.logEntry ::
                Event.await re.logSourceIndex (some e') ::
                Event.issue re.logSourceIndex :: evs') =
                re.logEntry :: printedValues evs' := by
              simp [printedValues, List.filterMap_cons]
            rw [hpv] at hv
            rcases List.mem_cons.mp hv with rfl | hv
            · rw [hrex]; rfl
            · exact hsm v hv
          · rw [hpp]
            rfl
          · intro hmem
            rcases List.mem_cons.mp hmem with h1 | h1
            · exact nomatch h1
            · rcases List.mem_cons.mp h1 with h2 | h2
              · exact nomatch h2
              · rcases List.mem_cons.mp h2 with h3 | h3
                · exact nomatch h3
                · exact hdn h3

theorem printedValues_append (a b : List Event) :
    printedValues (a ++ b) = printedValues a ++ printedValues b := by
  simp [printedValues, List.filterMap_append]

theorem printedEntries_append (a b : List Event) :
    printedEntries (a ++ b) = printedEntries a ++ printedEntries b := by
  simp [printedEntries, List.filterMap_append]

theorem getSource_sorted {srcs : List (List LogEntry)}
    (h : ∀ l ∈ srcs, l.Pairwise fun a b => a.date ≤ b.date) :
    ∀ j, (getSource srcs j).Pairwise fun a b => a.date ≤ b.date := by
  induction srcs with
  | nil => intro j; cases j <;> exact List.Pairwise.nil
  | cons l ls ih =>
    intro j
    cases j with
    | zero => exact h l (List.mem_cons_self _ _)
    | succ k => exact ih (fun m hm => h m (List.mem_cons_of_mem _ hm)) k

theorem printed_map_issue (idxs : List Nat) :
    printedValues (idxs.map Event.issue) = [] ∧
    printedEntries (idxs.map Event.issue) = [] ∧
    Event.done ∉ idxs.map Event.issue := by
  induction idxs with
  | nil => exact ⟨rfl, rfl, List.not_mem_nil _⟩
  | cons i rest ih =>
    obtain ⟨ih1, ih2, ih3⟩ := ih
    refine ⟨?_, ?_, ?_⟩
    · simp only [List.map_cons, printedValues, List.filterMap_cons]
      exact ih1
    · simp only [List.map_cons, printedEntries, List.filterMap_cons]
      exact ih2
    · simp only [List.map_cons]
      intro hmem
      rcases List.mem_cons.mp hmem with h1 | h1
      · exact nomatch h1
      · exact ih3 h1

theorem asyncSeedAwait_no_print :
    ∀ (entries : List (Nat × Option LogEntry)) (srcs : List (List LogEntry))
      (pmap : List (Nat × Option LogEntry)),
      printedValues (asyncSeedAwait srcs entries pmap).2.2.2 = [] ∧
      printedEntries (asyncSeedAwait srcs entries pmap).2.2.2 = [] ∧
      Event.done ∉ (asyncSeedAwait srcs entries pmap).2.2.2 := by
  intro entries
  induction entries with
  | nil =>
    intro srcs pmap
    exact ⟨rfl, rfl, List.not_mem_nil _⟩
  | cons hd rest ih =>
    obtain ⟨i, r⟩ := hd
    intro srcs pmap
    cases r with
    | none =>
      rcases ha : asyncSeedAwait srcs rest (mapDelete pmap i) with ⟨s2, p2, acc, evs⟩
      obtain ⟨ih1, ih2, ih3⟩ := ih srcs (mapDelete pmap i)
      rw [ha] at ih1 ih2 ih3
      have ih1' : printedValues evs = [] := ih1
      have ih2' : printedEntries evs = [] := ih2
      have ih3' : Event.done ∉ evs := ih3
      have hunfold : (asyncSeedAwait srcs ((i, none) :: rest) pmap).2.2.2 =
          Event.await i none :: evs := by
        simp only [asyncSeedAwait, ha]
      rw [hunfold]
      refine ⟨?_, ?_, ?_⟩
      · simpa [printedValues, List.filterMap_cons] using ih1'
      · simpa [printedEntries, List.filterMap_cons] using ih2'
      · intro hmem
        rcases List.mem_cons.mp hmem with h1 | h1
        · exact nomatch h1
        · exact ih3' h1
    | some e =>
      rcases hp : popSource srcs i with ⟨r2, srcs'⟩
      rcases ha : asyncSeedAwait srcs' rest (mapSet pmap i r2) with ⟨s2, p2, acc, evs⟩
      obtain ⟨ih1, ih2, ih3⟩ := ih srcs' (mapSet pmap i r2)
      rw [ha] at ih1 ih2 ih3
      have ih1' : printedValues evs = [] := ih1
      have ih2' : printedEntries evs = [] := ih2
      have ih3' : Event.done ∉ evs := ih3
      have hunfold : (asyncSeedAwait srcs ((i, some e) :: rest) pmap).2.2.2 =
          Event.await i (some e) :: Event.issue i :: evs := by
        simp only [asyncSeedAwait, hp, ha]
      rw [hunfold]
      refine ⟨?_, ?_, ?_⟩
      · simpa [printedValues, List.filterMap_cons] using ih1'
      · simpa [printedEntries, List.filterMap_cons] using ih2'
      · intro hmem
        rcases List.mem_cons.mp hmem with h1 | h1
        · exact nomatch h1
        · rcases List.mem_cons.mp h1 with h2 | h2
          · exact nomatch h2
          · exact ih3' h2

/-- C2 (amended): for sources that are each internally non-decreasing by
date — the delivery guarantee a log source gives — the pipelined engine,
run with enough fuel for its loop (one iteration per entry plus the final
empty-queue check), finishes normally and the chronological merge
round-trips: every log entry of every source is printed exactly once (as
a multiset), the printed dates are non-decreasing, the exhaustion
sentinel is never printed, and `printer.done()` runs exactly once,
strictly after the last print. -/
theorem asyncRun_sorted_correct (srcs : List (List LogEntry))
    (hsorted : ∀ l ∈ srcs, l.Pairwise fun a b => a.date ≤ b.date) :
    ∃ evs fin, asyncRun (totalEntries srcs + 1) srcs = (evs, some fin) ∧
      (printedEntries evs : Multiset LogEntry) = (srcs.flatten : Multiset LogEntry) ∧
      (printedDates evs).Chain' (· ≤ ·) ∧
      (∀ v ∈ printedValues evs, v.isSome = true) ∧
      ∃ p, evs = p ++ [Event.done] ∧ Event.done ∉ p := by
  have hnd : (List.range srcs.length).Nodup := List.nodup_range _
  rcases h1 : asyncSeedIssue srcs (List.range srcs.length) with ⟨srcs1, pmap0, evs1⟩
  obtain ⟨a, b, c, d⟩ := asyncSeedIssue_full (List.range srcs.length) srcs hnd
  rw [h1] at a b c d
  have a2 : ∀ j, j ∉ List.range srcs.length →
      getSource srcs1 j = getSource srcs j := a
  have b2 : ∀ i r, (i, r) ∈ pmap0 →
      (r = none ∧ getSource srcs i = [] ∧ getSource srcs1 i = []) ∨
      (∃ e, r = some e ∧ getSource srcs i = e :: getSource srcs1 i) := b
  have c2 : (srcs.flatten : Multiset LogEntry) =
      (pendingVals pmap0 : Multiset LogEntry) + (srcs1.flatten : Multiset LogEntry) := c
  have hkeys0 : mapKeys pmap0 = List.range srcs.length := by
    have h := asyncSeedIssue_keys (List.range srcs.length) srcs
    rw [h1] at h
    exact h
  have hevs1 : evs1 = (List.range srcs.length).map Event.issue := by
    have h := asyncSeedIssue_evs (List.range srcs.length) srcs
    rw [h1] at h
    exact h
  have hnd0 : (mapKeys pmap0).Nodup := by rw [hkeys0]; exact hnd
  have hsnap : ∀ pq ∈ pmap0, mapGet pmap0 pq.1 = some pq.2 := by
    intro pq hpq
    obtain ⟨a0, r0⟩ := pq
    exact mapGet_of_mem_nodup hnd0 hpq
  have hsort1 : ∀ j, (getSource srcs1 j).Pairwise fun a b => a.date ≤ b.date := by
    intro j
    by_cases hj : j ∈ List.range srcs.length
    · have hjk : j ∈ mapKeys pmap0 := by rw [hkeys0]; exact hj
      obtain ⟨r, hr⟩ := mem_mapKeys.mp hjk
      rcases b2 j r hr with ⟨_, _, hnil⟩ | ⟨e, _, hcons⟩
      · rw [hnil]
        exact List.Pairwise.nil
      · have hs := getSource_sorted hsorted j
        rw [hcons] at hs
        exact (List.pairwise_cons.mp hs).2
    · rw [a2 j hj]
      exact getSource_sorted hsorted j
  have hvals : ∀ pq ∈ pmap0,
      (pq.2 = none → getSource srcs1 pq.1 = []) ∧
      (∀ e, pq.2 = some e → ∀ z ∈ getSource srcs1 pq.1, e.date ≤ z.date) := by
    intro pq hpq
    obtain ⟨a0, r0⟩ := pq
    rcases b2 a0 r0 hpq with ⟨hr, _, hnil⟩ | ⟨e, hr, hcons⟩
    · refine ⟨fun _ => hnil, ?_⟩
      intro e2 he2
      rw [hr] at he2
      exact nomatch he2
    · refine ⟨?_, ?_⟩
      · intro h0
        rw [hr] at h0
        exact nomatch h0
      · intro e2 he2
        rw [hr] at he2
        obtain rfl := Option.some.inj he2
        intro z hz
        have hs := getSource_sorted hsorted a0
        rw [hcons] at hs
        exact (List.pairwise_cons.mp hs).1 z hz
  rcases h2 : asyncSeedAwait srcs1 pmap0 pmap0 with ⟨srcs2, pmap1, ranked, evs2⟩
  obtain ⟨A, B, C, D, E, F, G⟩ :=
    asyncSeedAwait_full pmap0 srcs1 pmap0 hnd0 hnd0 hsnap hsort1 hvals
  rw [h2] at A B C D E F G
  have A2 : ∀ j, j ∉ activeKeys pmap0 → getSource srcs2 j = getSource srcs1 j := A
  have C2 : ∀ re ∈ ranked, ∃ e, re.logEntry = some e ∧
      ∃ r2, mapGet pmap1 re.logSourceIndex = some r2 ∧
        (r2 = none → getSource srcs2 re.logSourceIndex = []) ∧
        (∀ y, r2 = some y → e.date ≤ y.date ∧
          ∀ z ∈ getSource srcs2 re.logSourceIndex, y.date ≤ z.date) := C
  have D2 : (srcs1.flatten : Multiset LogEntry) +
      (pendingVals pmap0 : Multiset LogEntry) =
      (srcs2.flatten : Multiset LogEntry) + (pendingVals pmap1 : Multiset LogEntry) +
        (queueVals ranked : Multiset LogEntry) := D
  have E2 : ∀ j, (getSource srcs2 j).Pairwise fun a b => a.date ≤ b.date := E
  have G2 : ranked.map RankedEntry.logSourceIndex = activeKeys pmap0 := G
  obtain ⟨K1, K2, K3, K4⟩ := asyncSeedAwait_keys pmap0 srcs1 pmap0 hnd0 hnd0
    (fun p hp => List.mem_map_of_mem Prod.fst hp)
  rw [h2] at K1 K2 K3 K4
  have K1' : (mapKeys pmap1).Nodup := K1
  have K2' : ∀ j, j ∈ mapKeys pmap1 ↔
      ((j ∈ mapKeys pmap0 ∧ j ∉ pmap0.map Prod.fst) ∨
        j ∈ ranked.map RankedEntry.logSourceIndex) := K2
  have K3' : (ranked.map RankedEntry.logSourceIndex).Nodup := K3
  have hkeysiff : ∀ i, i ∈ mapKeys pmap1 ↔
      i ∈ ranked.map RankedEntry.logSourceIndex := by
    intro i
    rw [K2' i]
    constructor
    · rintro (⟨hj1, hj2⟩ | hj)
      · exact absurd hj1 hj2
      · exact hj
    · exact Or.inr
  have hqsome : ∀ re ∈ ranked, re.logEntry.isSome = true := by
    intro re hre
    obtain ⟨e, he, _⟩ := C2 re hre
    rw [he]
    rfl
  have hinv : LoopInv none srcs2 pmap1 ranked := by
    refine ⟨K1', K3', hqsome, hkeysiff, E2, ?_, ?_, ?_, ?_, ?_⟩
    · intro i hi
      have hik : i ∈ mapKeys pmap1 := mem_keys_of_mapGet hi
      obtain ⟨re, hre, hrei⟩ := List.mem_map.mp ((hkeysiff i).mp hik)
      obtain ⟨e, he, r2, hr2, hr2n, hr2s⟩ := C2 re hre
      rw [hrei, hi] at hr2
      obtain rfl := (Option.some.inj hr2).symm
      have hnil := hr2n rfl
      rw [hrei] at hnil
      exact hnil
    · intro i e hi
      have hik : i ∈ mapKeys pmap1 := mem_keys_of_mapGet hi
      obtain ⟨re, hre, hrei⟩ := List.mem_map.mp ((hkeysiff i).mp hik)
      obtain ⟨e0, he0, r2, hr2, hr2n, hr2s⟩ := C2 re hre
      rw [hrei, hi] at hr2
      obtain rfl := (Option.some.inj hr2).symm
      have hs := (hr2s e rfl).2
      rw [hrei] at hs
      exact hs
    · intro i hi
      by_cases hact : i ∈ activeKeys pmap0
      · exfalso
        have hirq : i ∈ ranked.map RankedEntry.logSourceIndex := by
          rw [G2]
          exact hact
        exact hi ((hkeysiff i).mpr hirq)
      · rw [A2 i hact]
        by_cases hj : i ∈ List.range srcs.length
        · have hjk : i ∈ mapKeys pmap0 := by rw [hkeys0]; exact hj
          obtain ⟨r, hr⟩ := mem_mapKeys.mp hjk
          cases r with
          | none =>
            rcases b2 i none hr with ⟨_, _, hnil⟩ | ⟨e, he, _⟩
            · exact hnil
            · exact nomatch he
          | some e => exact absurd (mem_activeKeys_of_some hr) hact
        · rw [a2 i hj]
          have hlt : ¬ i < srcs.length := fun hc => hj (List.mem_range.mpr hc)
          exact getSource_eq_nil_of_ge (Nat.le_of_not_lt hlt)
    · intro re hre x hx c' hc
      exact nomatch hc
    · intro re hre x e hx hget2
      obtain ⟨e0, he0, r2, hr2, hr2n, hr2s⟩ := C2 re hre
      rw [hget2] at hr2
      obtain rfl := (Option.some.inj hr2).symm
      rw [hx] at he0
      obtain rfl := Option.some.inj he0
      exact (hr2s e rfl).1
  have hms1 : srcs.flatten.length =
      (pendingVals pmap0).length + srcs1.flatten.length := by
    have h := congrArg Multiset.card c2
    simpa using h
  have hms2 : srcs1.flatten.length + (pendingVals pmap0).length =
      srcs2.flatten.length +
        ((pendingVals pmap1).length + (queueVals ranked).length) := by
    have h := congrArg Multiset.card D2
    simpa using h
  have hqvlen : (queueVals ranked).length = ranked.length :=
    queueVals_length_of_some hqsome
  have hmeas : loopMeasure srcs2 pmap1 ranked < totalEntries srcs + 1 := by
    rw [loopMeasure, totalEntries]
    omega
  obtain ⟨evs3, fin, heq3, hms3, hch3, hbd3, hsm3, p3, hpp3, hdn3⟩ :=
    asyncLoop_correct (totalEntries srcs + 1) none srcs2 pmap1 ranked hinv hmeas
  have hrun : asyncRun (totalEntries srcs + 1) srcs =
      (evs1 ++ evs2 ++ evs3, some fin) := by
    simp only [asyncRun, h1, h2, heq3]
  obtain ⟨hpv1, hpe1, hdn1⟩ := printed_map_issue (List.range srcs.length)
  rw [← hevs1] at hpv1 hpe1 hdn1
  have hnp2 := asyncSeedAwait_no_print pmap0 srcs1 pmap0
  rw [h2] at hnp2
  have hpv2 : printedValues evs2 = [] := hnp2.1
  have hpe2 : printedEntries evs2 = [] := hnp2.2.1
  have hdn2 : Event.done ∉ evs2 := hnp2.2.2
  have hpeapp : printedEntries (evs1 ++ evs2 ++ evs3) = printedEntries evs3 := by
    rw [printedEntries_append, printedEntries_append, hpe1, hpe2]
    rfl
  have hpvapp : printedValues (evs1 ++ evs2 ++ evs3) = printedValues evs3 := by
    rw [printedValues_append, printedValues_append, hpv1, hpv2]
    rfl
  have hpdapp : printedDates (evs1 ++ evs2 ++ evs3) = printedDates evs3 := by
    rw [printedDates, hpeapp]
    rfl
  refine ⟨evs1 ++ evs2 ++ evs3, fin, hrun, ?_, ?_, ?_,
    evs1 ++ evs2 ++ p3, ?_, ?_⟩
  · rw [hpeapp, hms3, remainingMS]
    rw [c2, ← D2]
    abel
  · rw [hpdapp]
    exact hch3
  · intro v hv
    rw [hpvapp] at hv
    exact hsm3 v hv
  · rw [hpp3]
    simp [List.append_assoc]
  · intro hmem
    rcases List.mem_append.mp hmem with hA | hB
    · rcases List.mem_append.mp hA with hA1 | hA2
      · exact hdn1 hA1
      · exact hdn2 hA2
    · exact hdn3 hB

/-- Witness: two concrete sources, each internally non-decreasing; the
amended merge property holds for them by the theorem above. -/
theorem asyncRun_sorted_correct_witness :
    (∀ l ∈ [[(⟨1, "a"⟩ : LogEntry), ⟨3, "c"⟩], [⟨2, "b"⟩]],
      l.Pairwise fun a b => a.date ≤ b.date) ∧
    (∃ evs fin,
      asyncRun (totalEntries [[(⟨1, "a"⟩ : LogEntry), ⟨3, "c"⟩], [⟨2, "b"⟩]] + 1)
          [[(⟨1, "a"⟩ : LogEntry), ⟨3, "c"⟩], [⟨2, "b"⟩]] = (evs, some fin) ∧
      (printedEntries evs : Multiset LogEntry) =
        (([[(⟨1, "a"⟩ : LogEntry), ⟨3, "c"⟩], [⟨2, "b"⟩]] :
          List (List LogEntry)).flatten : Multiset LogEntry) ∧
      (printedDates evs).Chain' (· ≤ ·) ∧
      (∀ v ∈ printedValues evs, v.isSome = true) ∧
      ∃ p, evs = p ++ [Event.done] ∧ Event.done ∉ p) :=
  ⟨by decide, asyncRun_sorted_correct [[⟨1, "a"⟩, ⟨3, "c"⟩], [⟨2, "b"⟩]] (by decide)⟩
